import Mathlib

/-!
# Verification of the `serde-json-assert` diff engine

A shallow embedding of `src/diff.rs`: the recursive JSON comparator
(`diff` / `DiffFolder`), its configuration, paths and difference records.

Modelling conventions:

* JSON numbers (`serde_json::Number`, an external collaborator of the
  crate) are modelled from the spec: a number is either an integer or a
  float, floats are idealized as rationals, and the best-effort
  conversion to a 64-bit float (`as_f64`) fails for integers outside the
  float-safe range `|n| ≤ 2^53`.
* The approximate float equality of the `float_cmp` crate (also
  external) is modelled from the spec as `|a - b| ≤ ε` over the
  idealized rationals; the ULP component of `F64Margin` is not modelled.
  The comparison is phrased by cross-multiplying numerators and
  denominators so that it is kernel-computable; `ratWithin_iff_abs_le`
  proves it equal to `|a - b| ≤ ε`.
* The recursion of `diff_with`/`fold_json` is embedded with an explicit
  fuel parameter (`diffFuel`), structural in the fuel so that concrete
  runs evaluate inside the kernel.  `diffFuel_fuel_irrel` shows the
  result is independent of the fuel once the fuel exceeds the size of
  the inputs, and `diffFuel_isSome_of_lt` shows that this much fuel
  always suffices.
* Panics (`unwrap`, `expect`, the two `unreachable!` arms) are embedded
  as the `none` result of an `Option`-valued computation, so "never
  panics" becomes "the result is always `some`".
* The Rust code collects the union of strict-mode keys into a
  `std::collections::HashSet` and iterates it; that iteration order is
  unspecified.  The embedding fixes a canonical enumeration (first
  occurrence in `rhs`-keys-then-`lhs`-keys order, `allIndexes` /
  `allObjKeys`); the order-sensitivity of the output is examined
  separately by instantiating the strict loops with other enumerations
  of the same key set.
* JSON objects are modelled as their entry sequences (the iteration
  sequence of the underlying map), keys unique.
-/

namespace SerdeJsonAssert

/-! ## Configuration (modelled from the spec: the `Config` type and its
enums live in the crate's `lib.rs`, which is not part of the sources;
the spec describes four orthogonal copyable fields and a
default-compare-mode constructor). -/

inductive CompareMode
  | Inclusive
  | Strict
  deriving DecidableEq

inductive ArraySortingMode
  | Exact
  | Ignore
  deriving DecidableEq

inductive NumericMode
  | Strict
  | AssumeFloat
  deriving DecidableEq

/-- Epsilon is an `f64` in the Rust code; floats are idealized as `ℚ`. -/
inductive FloatCompareMode
  | Exact
  | Epsilon (epsilon : ℚ)
  deriving DecidableEq

structure Config where
  compare_mode : CompareMode
  array_sorting_mode : ArraySortingMode
  numeric_mode : NumericMode
  float_compare_mode : FloatCompareMode
  deriving DecidableEq

/-- Modelled from the spec: the default-compare-mode constructor.  The
defaults (positional arrays, strict numerics, exact floats) are the ones
the spec's testable properties assume. -/
def Config.new (m : CompareMode) : Config :=
  { compare_mode := m
    array_sorting_mode := .Exact
    numeric_mode := .Strict
    float_compare_mode := .Exact }

def strictConfig : Config := Config.new .Strict

def inclusiveConfig : Config := Config.new .Inclusive

/-! ## The value model (modelled from the spec: `serde_json::Value` is
an external collaborator).  A number is stored either as an integer or
as a float; the two representations are never equal, matching
`serde_json::Number`'s derived equality. -/

inductive Number
  | int : Int → Number
  | float : ℚ → Number
  deriving DecidableEq

/-- Modelled from the spec: the best-effort conversion of a number to a
64-bit float.  It may fail, e.g. for integers outside the float-safe
range; the failure must be treated as "not interchangeable as floats". -/
def Number.as_f64 : Number → Option ℚ
  | .int n => if n.natAbs ≤ 2 ^ 53 then some (n : ℚ) else none
  | .float q => some q

/-- Whether the stored representation of the number is a float
(`serde_json::Number::is_f64`). -/
def Number.is_f64 : Number → Bool
  | .int _ => false
  | .float _ => true

inductive Value
  | null
  | bool (b : Bool)
  | number (n : Number)
  | str (s : String)
  | arr (items : List Value)
  | obj (entries : List (String × Value))

mutual
/-- Structural equality of JSON values (`PartialEq` on
`serde_json::Value`). -/
def Value.beq : Value → Value → Bool
  | .null, .null => true
  | .bool a, .bool b => a = b
  | .number a, .number b => a = b
  | .str a, .str b => a = b
  | .arr a, .arr b => Value.beqList a b
  | .obj a, .obj b => Value.beqEntries a b
  | _, _ => false

def Value.beqList : List Value → List Value → Bool
  | [], [] => true
  | a :: as', b :: bs' => a.beq b && Value.beqList as' bs'
  | _, _ => false

def Value.beqEntries : List (String × Value) → List (String × Value) → Bool
  | [], [] => true
  | (k, v) :: as', (k', v') :: bs' => k = k' && v.beq v' && Value.beqEntries as' bs'
  | _, _ => false
end

theorem Value.beqList_iff (xs ys : List Value)
    (h : ∀ x ∈ xs, ∀ b : Value, x.beq b = true ↔ x = b) :
    Value.beqList xs ys = true ↔ xs = ys := by
  induction xs generalizing ys with
  | nil => cases ys <;> simp [Value.beqList]
  | cons x xs ihx =>
    cases ys with
    | nil => simp [Value.beqList]
    | cons y ys =>
      have hhead := h x (List.mem_cons_self x xs) y
      have htail := ihx ys (fun z hz b => h z (List.mem_cons_of_mem x hz) b)
      simp only [Value.beqList, Bool.and_eq_true, hhead, htail, List.cons.injEq]

theorem Value.beqEntries_iff (xs ys : List (String × Value))
    (h : ∀ kv ∈ xs, ∀ b : Value, kv.2.beq b = true ↔ kv.2 = b) :
    Value.beqEntries xs ys = true ↔ xs = ys := by
  induction xs generalizing ys with
  | nil => cases ys <;> simp [Value.beqEntries]
  | cons x xs ihx =>
    obtain ⟨k, v⟩ := x
    cases ys with
    | nil => simp [Value.beqEntries]
    | cons y ys =>
      obtain ⟨k', v'⟩ := y
      have hhead := h (k, v) (List.mem_cons_self _ xs) v'
      have htail := ihx ys (fun z hz b => h z (List.mem_cons_of_mem _ hz) b)
      simp only [Value.beqEntries, Bool.and_eq_true, hhead, htail,
        List.cons.injEq, Prod.mk.injEq, decide_eq_true_eq]

theorem Value.beq_iff : ∀ a b : Value, Value.beq a b = true ↔ a = b := by
  have main : ∀ n, ∀ a : Value, sizeOf a < n → ∀ b : Value,
      (Value.beq a b = true ↔ a = b) := by
    intro n
    induction n with
    | zero =>
      intro a h
      exact absurd h (Nat.not_lt_zero _)
    | succ n ih =>
      intro a h b
      cases a with
      | null => cases b <;> simp [Value.beq]
      | bool x => cases b <;> simp [Value.beq]
      | number x => cases b <;> simp [Value.beq]
      | str x => cases b <;> simp [Value.beq]
      | arr xs =>
        cases b with
        | arr ys =>
          simp only [Value.beq, Value.arr.injEq]
          refine Value.beqList_iff xs ys fun x hx b => ih x ?_ b
          have h1 := List.sizeOf_lt_of_mem hx
          have h2 : sizeOf (Value.arr xs) = 1 + sizeOf xs := Value.arr.sizeOf_spec xs
          omega
        | null | bool | number | str | obj => simp [Value.beq]
      | obj xs =>
        cases b with
        | obj ys =>
          simp only [Value.beq, Value.obj.injEq]
          refine Value.beqEntries_iff xs ys fun kv hkv b => ih kv.2 ?_ b
          have h1 := List.sizeOf_lt_of_mem hkv
          have h2 : sizeOf (Value.obj xs) = 1 + sizeOf xs := Value.obj.sizeOf_spec xs
          have h3 : sizeOf kv = 1 + sizeOf kv.1 + sizeOf kv.2 := by
            obtain ⟨k, v⟩ := kv
            rfl
          omega
        | null | bool | number | str | arr => simp [Value.beq]
  intro a b
  exact main (sizeOf a + 1) a (Nat.lt_succ_self _) b

instance : DecidableEq Value := fun a b =>
  decidable_of_iff (Value.beq a b = true) (Value.beq_iff a b)

mutual
/-- A computable structural size of a JSON value, used to pre-compute
enough fuel for the recursion of the comparator. -/
def Value.vsize : Value → Nat
  | .null => 1
  | .bool _ => 1
  | .number _ => 1
  | .str _ => 1
  | .arr xs => 1 + Value.vsizeList xs
  | .obj es => 1 + Value.vsizeEntries es

def Value.vsizeList : List Value → Nat
  | [] => 0
  | x :: xs => 1 + x.vsize + Value.vsizeList xs

def Value.vsizeEntries : List (String × Value) → Nat
  | [] => 0
  | (_, v) :: es => 1 + v.vsize + Value.vsizeEntries es
end

/-- `serde_json::Value::as_f64`: `None` on non-numbers, else the
number's conversion. -/
def Value.as_f64 : Value → Option ℚ
  | .number n => n.as_f64
  | _ => none

/-- `serde_json::Value::is_f64`. -/
def Value.is_f64 : Value → Bool
  | .number n => n.is_f64
  | _ => false

def Value.as_array : Value → Option (List Value)
  | .arr xs => some xs
  | _ => none

def Value.as_object : Value → Option (List (String × Value))
  | .obj es => some es
  | _ => none

/-- Lookup in a JSON object by key (`Map::get`). -/
def objGet (entries : List (String × Value)) (k : String) : Option Value :=
  (entries.find? fun e => e.1 = k).map (·.2)

/-- The keys of a JSON object, in iteration order (`Map::keys`). -/
def objKeys (entries : List (String × Value)) : List String :=
  entries.map (·.1)

/-! ## Paths and difference records -/

inductive KeyRef
  | Idx (idx : Nat)
  | Field (field : String)
  deriving DecidableEq

inductive PathRef
  | Root
  | Keys (keys : List KeyRef)
  deriving DecidableEq

/-- `PathRef::append`: non-destructive append of one key. -/
def PathRef.append : PathRef → KeyRef → PathRef
  | .Root, k => .Keys [k]
  | .Keys l, k => .Keys (l ++ [k])

structure DifferenceRef where
  path : PathRef
  lhs : Option Value
  rhs : Option Value
  config : Config
  deriving DecidableEq

def mkRecord (p : PathRef) (l r : Option Value) (c : Config) : DifferenceRef :=
  { path := p, lhs := l, rhs := r, config := c }

/-! ## The recursive comparator

`DOut` is the result of a folder step: `none` embeds a panic
(`unwrap` / `expect` / `unreachable!`), `some recs` the records pushed
onto the accumulator, in push order. -/

abbrev DOut := Option (List DifferenceRef)

abbrev DiffFn := Value → Value → Config → PathRef → DOut

/-- Modelled from the spec: `float_cmp` approximate equality
`|a - b| ≤ ε`, expressed by cross-multiplication (denominators are
positive) so the kernel can compute it; see `ratWithin_iff_abs_le`. -/
def ratWithin (a b e : ℚ) : Bool :=
  decide ((((a.num * b.den - b.num * a.den).natAbs : Int)) * e.den
    ≤ e.num * (a.den * b.den))

theorem ratWithin_iff_abs_le (a b e : ℚ) : ratWithin a b e = true ↔ |a - b| ≤ e := by
  have hda : (0 : ℚ) < (a.den : ℚ) := by exact_mod_cast a.den_pos
  have hdb : (0 : ℚ) < (b.den : ℚ) := by exact_mod_cast b.den_pos
  have hde : (0 : ℚ) < (e.den : ℚ) := by exact_mod_cast e.den_pos
  have ha : (a.num : ℚ) = a * a.den := by field_simp
  have hb : (b.num : ℚ) = b * b.den := by field_simp
  have he : (e.num : ℚ) = e * e.den := by field_simp
  rw [ratWithin, decide_eq_true_eq, ← Int.cast_le (R := ℚ)]
  push_cast
  rw [show ((a.num : ℚ) * b.den - (b.num : ℚ) * a.den)
      = (a - b) * (a.den * b.den) by rw [ha, hb]; ring]
  rw [abs_mul, abs_of_pos (show (0:ℚ) < (a.den : ℚ) * b.den by positivity)]
  rw [he]
  rw [show (e * e.den) * ((a.den : ℚ) * b.den)
      = e * ((a.den : ℚ) * b.den) * e.den by ring]
  rw [mul_le_mul_right hde,
    mul_le_mul_right (show (0:ℚ) < (a.den : ℚ) * b.den by positivity)]

/-- `DiffFolder::eq_floats`: exact equality unless the config asks for
an epsilon margin. -/
def eq_floats (c : Config) (lhs rhs : ℚ) : Bool :=
  match c.float_compare_mode with
  | .Epsilon epsilon => lhs == rhs || ratWithin lhs rhs epsilon
  | .Exact => lhs == rhs

/-- `DiffFolder::eq_values`: float rule when both representations are
floats, otherwise representation equality.  The `expect` calls are
embedded as the `none` result. -/
def eq_values (c : Config) (lhs rhs : Value) : Option Bool :=
  if lhs.is_f64 && rhs.is_f64 then
    match lhs.as_f64, rhs.as_f64 with
    | some a, some b => some (eq_floats c a b)
    | _, _ => none
  else
    some (lhs = rhs)

/-- `DiffFolder::on_null` / `on_bool` / `on_string` (the
`direct_compare!` macro). -/
def directCompare (c : Config) (p : PathRef) (lhsV rhsV : Value) : DOut :=
  if rhsV = lhsV then some [] else some [mkRecord p (some lhsV) (some rhsV) c]

/-- `DiffFolder::on_number`. -/
def onNumber (c : Config) (p : PathRef) (lhsV rhsV : Value) : DOut :=
  match
    (match c.numeric_mode with
      | .Strict => eq_values c lhsV rhsV
      | .AssumeFloat =>
        match lhsV.as_f64, rhsV.as_f64 with
        | some a, some b => some (eq_floats c a b)
        | a, b => some (a = b)) with
  | none => none
  | some is_equal =>
    if is_equal then some [] else some [mkRecord p (some lhsV) (some rhsV) c]

/-- Count of `x ∈ items` with `diff item x` empty (the `rhs_item_count`
filter of `on_array_contains`; the counted element is the diff's
right-hand side, the fixed item its left-hand side, and the diff runs
from the root path, as `diff` restarts the path). -/
def countMatchesAsLhs (d : DiffFn) (c : Config) (item : Value) :
    List Value → Option Nat
  | [] => some 0
  | x :: xs =>
    match d item x c .Root with
    | none => none
    | some res =>
      match countMatchesAsLhs d c item xs with
      | none => none
      | some n => some (if res.isEmpty then n + 1 else n)

/-- Count of `x ∈ items` with `diff x item` empty (the
`lhs_matching_items_count` filter of `on_array_contains`). -/
def countMatchesAsRhs (d : DiffFn) (c : Config) (item : Value) :
    List Value → Option Nat
  | [] => some 0
  | x :: xs =>
    match d x item c .Root with
    | none => none
    | some res =>
      match countMatchesAsRhs d c item xs with
      | none => none
      | some n => some (if res.isEmpty then n + 1 else n)

/-- The item loop of `DiffFolder::on_array_contains`: for each expected
item, compare its multiplicity within `rhs` against the count of
matching actual items; on the first violation push a single record for
the whole arrays and stop. -/
def containsLoop (d : DiffFn) (c : Config) (p : PathRef) (lhsV rhsV : Value)
    (lhsArr rhsFull : List Value) : List Value → DOut
  | [] => some []
  | rhsItem :: rest =>
    match countMatchesAsLhs d c rhsItem rhsFull with
    | none => none
    | some need =>
      match countMatchesAsRhs d c rhsItem lhsArr with
      | none => none
      | some matching =>
        if matching < need then
          some [mkRecord p (some lhsV) (some rhsV) c]
        else
          containsLoop d c p lhsV rhsV lhsArr rhsFull rest

/-- `DiffFolder::on_array_contains`. -/
def onArrayContains (d : DiffFn) (c : Config) (p : PathRef)
    (lhsV rhsV : Value) : DOut :=
  match rhsV.as_array with
  | some rhs =>
    match lhsV.as_array with
    | none => none
    | some lhsArr =>
      if c.compare_mode = .Strict ∧ lhsArr.length ≠ rhs.length then
        some [mkRecord p (some lhsV) (some rhsV) c]
      else
        containsLoop d c p lhsV rhsV lhsArr rhs rhs
  | none => some [mkRecord p (some lhsV) (some rhsV) c]

/-- The `Inclusive` arm of `DiffFolder::on_array`: walk `rhs` by index;
recurse where `lhs` has the index, else push a record whose `rhs` side
is the whole right-hand array. -/
def inclusiveArrayLoop (d : DiffFn) (c : Config) (p : PathRef) (rhsV : Value)
    (lhsArr : List Value) : Nat → List Value → DOut
  | _, [] => some []
  | idx, r :: rest =>
    match
      (match lhsArr.get? idx with
        | some l => d l r c (p.append (.Idx idx))
        | none => some [mkRecord (p.append (.Idx idx)) none (some rhsV) c]) with
    | none => none
    | some here =>
      match inclusiveArrayLoop d c p rhsV lhsArr (idx + 1) rest with
      | none => none
      | some tail => some (here ++ tail)

/-- One step of the `Strict` arm of `DiffFolder::on_array`: the
four-way match on `(lhs.get(key), rhs.get(key))`.  The `(None, None)`
arm is the `unreachable!`. -/
def strictArrayItem (d : DiffFn) (c : Config) (p : PathRef)
    (lhsArr rhsArr : List Value) (k : Nat) : DOut :=
  match lhsArr.get? k, rhsArr.get? k with
  | some l, some r => d l r c (p.append (.Idx k))
  | none, some r => some [mkRecord (p.append (.Idx k)) none (some r) c]
  | some l, none => some [mkRecord (p.append (.Idx k)) (some l) none c]
  | none, none => none

/-- The `Strict` arm of `DiffFolder::on_array`, iterating the union of
indices in the given enumeration order. -/
def strictArrayLoop (d : DiffFn) (c : Config) (p : PathRef)
    (lhsArr rhsArr : List Value) : List Nat → DOut
  | [] => some []
  | k :: rest =>
    match strictArrayItem d c p lhsArr rhsArr k with
    | none => none
    | some here =>
      match strictArrayLoop d c p lhsArr rhsArr rest with
      | none => none
      | some tail => some (here ++ tail)

/-- Modelled from the spec: `Indexes::indexes` (from the crate's
`core_ext.rs`, not in the sources) — the indices present in an array. -/
def indexes (xs : List Value) : List Nat :=
  List.range xs.length

/-- The union of indices of both arrays
(`rhs.indexes().chain(lhs.indexes()).collect::<HashSet<_>>()`).  The
`HashSet` iteration order is unspecified; the canonical enumeration
keeps the first occurrence order of the chain. -/
def allIndexes (rhsArr lhsArr : List Value) : List Nat :=
  (indexes rhsArr ++ indexes lhsArr).dedup

/-- `DiffFolder::on_array`. -/
def onArray (d : DiffFn) (c : Config) (p : PathRef) (lhsV rhsV : Value) : DOut :=
  if c.array_sorting_mode = .Ignore then
    onArrayContains d c p lhsV rhsV
  else
    match rhsV.as_array with
    | some rhsArr =>
      match lhsV.as_array with
      | none => none
      | some lhsArr =>
        match c.compare_mode with
        | .Inclusive => inclusiveArrayLoop d c p rhsV lhsArr 0 rhsArr
        | .Strict => strictArrayLoop d c p lhsArr rhsArr (allIndexes rhsArr lhsArr)
    | none => some [mkRecord p (some lhsV) (some rhsV) c]

/-- The `Inclusive` arm of `DiffFolder::on_object`: walk the entries of
`rhs`; recurse where `lhs` has the key, else push a record whose `rhs`
side is the whole right-hand object. -/
def inclusiveObjectLoop (d : DiffFn) (c : Config) (p : PathRef) (rhsV : Value)
    (lhsEntries : List (String × Value)) : List (String × Value) → DOut
  | [] => some []
  | (k, r) :: rest =>
    match
      (match objGet lhsEntries k with
        | some l => d l r c (p.append (.Field k))
        | none => some [mkRecord (p.append (.Field k)) none (some rhsV) c]) with
    | none => none
    | some here =>
      match inclusiveObjectLoop d c p rhsV lhsEntries rest with
      | none => none
      | some tail => some (here ++ tail)

/-- One step of the `Strict` arm of `DiffFolder::on_object`. -/
def strictObjectItem (d : DiffFn) (c : Config) (p : PathRef)
    (lhsEntries rhsEntries : List (String × Value)) (k : String) : DOut :=
  match objGet lhsEntries k, objGet rhsEntries k with
  | some l, some r => d l r c (p.append (.Field k))
  | none, some r => some [mkRecord (p.append (.Field k)) none (some r) c]
  | some l, none => some [mkRecord (p.append (.Field k)) (some l) none c]
  | none, none => none

/-- The `Strict` arm of `DiffFolder::on_object`, iterating the union of
keys in the given enumeration order. -/
def strictObjectLoop (d : DiffFn) (c : Config) (p : PathRef)
    (lhsEntries rhsEntries : List (String × Value)) : List String → DOut
  | [] => some []
  | k :: rest =>
    match strictObjectItem d c p lhsEntries rhsEntries k with
    | none => none
    | some here =>
      match strictObjectLoop d c p lhsEntries rhsEntries rest with
      | none => none
      | some tail => some (here ++ tail)

/-- The union of keys of both objects
(`rhs.keys().chain(lhs.keys()).collect::<HashSet<_>>()`).  The
`HashSet` iteration order is unspecified; the canonical enumeration
keeps the first occurrence order of the chain. -/
def allObjKeys (rhsEntries lhsEntries : List (String × Value)) : List String :=
  (objKeys rhsEntries ++ objKeys lhsEntries).dedup

/-- `DiffFolder::on_object`. -/
def onObject (d : DiffFn) (c : Config) (p : PathRef) (lhsV rhsV : Value) : DOut :=
  match rhsV.as_object with
  | some rhsEntries =>
    match lhsV.as_object with
    | none => none
    | some lhsEntries =>
      match c.compare_mode with
      | .Inclusive => inclusiveObjectLoop d c p rhsV lhsEntries rhsEntries
      | .Strict =>
        strictObjectLoop d c p lhsEntries rhsEntries
          (allObjKeys rhsEntries lhsEntries)
  | none => some [mkRecord p (some lhsV) (some rhsV) c]

/-- `diff_with` + `fold_json`: dispatch on the left value's variant.
The fuel makes the recursion structural; `fuelFor` below always
provides enough. -/
def diffFuel : Nat → Value → Value → Config → PathRef → DOut
  | 0, _, _, _, _ => none
  | fuel + 1, lhsV, rhsV, c, p =>
    match lhsV with
    | .null => directCompare c p lhsV rhsV
    | .bool _ => directCompare c p lhsV rhsV
    | .number _ => onNumber c p lhsV rhsV
    | .str _ => directCompare c p lhsV rhsV
    | .arr _ => onArray (diffFuel fuel) c p lhsV rhsV
    | .obj _ => onObject (diffFuel fuel) c p lhsV rhsV

/-- Enough fuel for `diff lhs rhs`: every recursive call strictly
decreases `max lhs.vsize rhs.vsize`. -/
def fuelFor (l r : Value) : Nat :=
  max l.vsize r.vsize + 1

/-- `diff` up to the embedded panics: `none` would mean a panic. -/
def diffOpt (l r : Value) (c : Config) : DOut :=
  diffFuel (fuelFor l r) l r c .Root

/-- `diff(lhs, rhs, config)`: the ordered list of difference records. -/
def diff (l r : Value) (c : Config) : List DifferenceRef :=
  (diffOpt l r c).getD []

end SerdeJsonAssert

namespace SerdeJsonAssert

/-! ## Size lemmas -/

theorem Value.vsize_pos : ∀ v : Value, 0 < v.vsize := by
  intro v
  cases v <;> simp [Value.vsize]

theorem Value.vsize_lt_of_mem {x : Value} {xs : List Value} (h : x ∈ xs) :
    x.vsize < Value.vsizeList xs := by
  induction xs with
  | nil => cases h
  | cons a as ih =>
    rcases List.mem_cons.mp h with rfl | h'
    · simp [Value.vsizeList]
      omega
    · have := ih h'
      simp [Value.vsizeList]
      omega

theorem Value.vsize_lt_arr {x : Value} {xs : List Value} (h : x ∈ xs) :
    x.vsize < (Value.arr xs).vsize := by
  have := Value.vsize_lt_of_mem h
  simp [Value.vsize]
  omega

theorem Value.vsize_lt_of_entry_mem {kv : String × Value}
    {es : List (String × Value)} (h : kv ∈ es) :
    kv.2.vsize < Value.vsizeEntries es := by
  induction es with
  | nil => cases h
  | cons a as ih =>
    obtain ⟨k, v⟩ := a
    rcases List.mem_cons.mp h with rfl | h'
    · simp [Value.vsizeEntries]
      omega
    · have := ih h'
      simp [Value.vsizeEntries]
      omega

theorem Value.vsize_lt_obj {kv : String × Value} {es : List (String × Value)}
    (h : kv ∈ es) : kv.2.vsize < (Value.obj es).vsize := by
  have := Value.vsize_lt_of_entry_mem h
  simp [Value.vsize]
  omega

theorem objGet_mem {es : List (String × Value)} {k : String} {v : Value}
    (h : objGet es k = some v) : (k, v) ∈ es := by
  unfold objGet at h
  rcases ho : es.find? fun e => e.1 = k with _ | kv
  · rw [ho] at h
    cases h
  · rw [ho] at h
    have hm := List.mem_of_find?_eq_some ho
    have hp := List.find?_some ho
    simp at hp h
    obtain ⟨k', v'⟩ := kv
    simp at hp
    subst hp
    simp at h
    subst h
    exact hm

theorem Value.vsize_lt_of_objGet {es : List (String × Value)} {k : String}
    {v : Value} (h : objGet es k = some v) : v.vsize < (Value.obj es).vsize :=
  Value.vsize_lt_obj (objGet_mem h)

theorem Value.vsize_lt_of_get? {xs : List Value} {i : Nat} {x : Value}
    (h : xs.get? i = some x) : x.vsize < (Value.arr xs).vsize :=
  Value.vsize_lt_arr (List.get?_mem h)

/-! ## Key-set lemmas -/

theorem mem_allIndexes {rhsArr lhsArr : List Value} {k : Nat} :
    k ∈ allIndexes rhsArr lhsArr ↔ k < rhsArr.length ∨ k < lhsArr.length := by
  simp [allIndexes, indexes, List.mem_dedup, List.mem_append, List.mem_range]

theorem mem_allObjKeys {rhsEntries lhsEntries : List (String × Value)}
    {k : String} :
    k ∈ allObjKeys rhsEntries lhsEntries
      ↔ k ∈ objKeys rhsEntries ∨ k ∈ objKeys lhsEntries := by
  simp [allObjKeys, List.mem_dedup, List.mem_append]

theorem objGet_isSome_of_mem_keys {es : List (String × Value)} {k : String}
    (h : k ∈ objKeys es) : (objGet es k).isSome := by
  unfold objKeys at h
  obtain ⟨kv, hkv, rfl⟩ := List.mem_map.mp h
  unfold objGet
  rcases ho : es.find? fun e => e.1 = kv.1 with _ | found
  · have := List.find?_eq_none.mp ho kv hkv
    simp at this
  · rw [ho]
    rfl

theorem objGet_eq_none_iff {es : List (String × Value)} {k : String} :
    objGet es k = none ↔ k ∉ objKeys es := by
  constructor
  · intro h hk
    have := objGet_isSome_of_mem_keys hk
    rw [h] at this
    cases this
  · intro hk
    rcases ho : objGet es k with _ | v
    · rfl
    · exact absurd (List.mem_map.mpr ⟨(k, v), objGet_mem ho, rfl⟩) hk

theorem get?_isSome_iff {xs : List Value} {i : Nat} :
    (xs.get? i).isSome ↔ i < xs.length := by
  constructor
  · intro h
    rcases ho : xs.get? i with _ | x
    · rw [ho] at h
      cases h
    · obtain ⟨hlt, _⟩ := List.get?_eq_some.mp ho
      exact hlt
  · intro h
    rw [List.get?_eq_get h]
    rfl

end SerdeJsonAssert

namespace SerdeJsonAssert

/-! ## Congruence of the folder helpers in the recursive callback

These lemmas let two callbacks be exchanged whenever they agree on the
values the helper can actually feed them; they drive the proof that the
fuel is irrelevant once large enough. -/

theorem countMatchesAsLhs_congr {d₁ d₂ : DiffFn} {c : Config} {item : Value}
    {xs : List Value}
    (h : ∀ x ∈ xs, d₁ item x c .Root = d₂ item x c .Root) :
    countMatchesAsLhs d₁ c item xs = countMatchesAsLhs d₂ c item xs := by
  induction xs with
  | nil => rfl
  | cons x xs ih =>
    unfold countMatchesAsLhs
    rw [h x (List.mem_cons_self x xs),
      ih fun z hz => h z (List.mem_cons_of_mem x hz)]

theorem countMatchesAsRhs_congr {d₁ d₂ : DiffFn} {c : Config} {item : Value}
    {xs : List Value}
    (h : ∀ x ∈ xs, d₁ x item c .Root = d₂ x item c .Root) :
    countMatchesAsRhs d₁ c item xs = countMatchesAsRhs d₂ c item xs := by
  induction xs with
  | nil => rfl
  | cons x xs ih =>
    unfold countMatchesAsRhs
    rw [h x (List.mem_cons_self x xs),
      ih fun z hz => h z (List.mem_cons_of_mem x hz)]

theorem containsLoop_congr {d₁ d₂ : DiffFn} {c : Config} {p : PathRef}
    {lhsV rhsV : Value} {lhsArr rhsFull items : List Value}
    (h₁ : ∀ it ∈ items, ∀ x ∈ rhsFull, d₁ it x c .Root = d₂ it x c .Root)
    (h₂ : ∀ it ∈ items, ∀ x ∈ lhsArr, d₁ x it c .Root = d₂ x it c .Root) :
    containsLoop d₁ c p lhsV rhsV lhsArr rhsFull items
      = containsLoop d₂ c p lhsV rhsV lhsArr rhsFull items := by
  induction items with
  | nil => rfl
  | cons it rest ih =>
    unfold containsLoop
    rw [countMatchesAsLhs_congr (h₁ it (List.mem_cons_self it rest)),
      countMatchesAsRhs_congr (h₂ it (List.mem_cons_self it rest)),
      ih (fun z hz => h₁ z (List.mem_cons_of_mem it hz))
        (fun z hz => h₂ z (List.mem_cons_of_mem it hz))]

theorem inclusiveArrayLoop_congr {d₁ d₂ : DiffFn} {c : Config} {p : PathRef}
    {rhsV : Value} {lhsArr : List Value} {items : List Value}
    (h : ∀ x ∈ lhsArr, ∀ r ∈ items, ∀ p', d₁ x r c p' = d₂ x r c p') :
    ∀ idx, inclusiveArrayLoop d₁ c p rhsV lhsArr idx items
      = inclusiveArrayLoop d₂ c p rhsV lhsArr idx items := by
  induction items with
  | nil => intro idx; rfl
  | cons r rest ih =>
    intro idx
    unfold inclusiveArrayLoop
    have hhead :
        (match lhsArr.get? idx with
          | some l => d₁ l r c (p.append (.Idx idx))
          | none => some [mkRecord (p.append (.Idx idx)) none (some rhsV) c])
        = (match lhsArr.get? idx with
          | some l => d₂ l r c (p.append (.Idx idx))
          | none => some [mkRecord (p.append (.Idx idx)) none (some rhsV) c]) := by
      rcases hg : lhsArr.get? idx with _ | l
      · rfl
      · exact h l (List.get?_mem hg) r (List.mem_cons_self r rest) _
    rw [hhead, ih (fun x hx r' hr' p' => h x hx r' (List.mem_cons_of_mem r hr') p')]

theorem strictArrayItem_congr {d₁ d₂ : DiffFn} {c : Config} {p : PathRef}
    {lhsArr rhsArr : List Value} {k : Nat}
    (h : ∀ x ∈ lhsArr, ∀ y ∈ rhsArr, ∀ p', d₁ x y c p' = d₂ x y c p') :
    strictArrayItem d₁ c p lhsArr rhsArr k = strictArrayItem d₂ c p lhsArr rhsArr k := by
  unfold strictArrayItem
  rcases hl : lhsArr.get? k with _ | l <;> rcases hr : rhsArr.get? k with _ | r
  · rfl
  · rfl
  · rfl
  · exact h l (List.get?_mem hl) r (List.get?_mem hr) _

theorem strictArrayLoop_congr {d₁ d₂ : DiffFn} {c : Config} {p : PathRef}
    {lhsArr rhsArr : List Value} {keys : List Nat}
    (h : ∀ x ∈ lhsArr, ∀ y ∈ rhsArr, ∀ p', d₁ x y c p' = d₂ x y c p') :
    strictArrayLoop d₁ c p lhsArr rhsArr keys
      = strictArrayLoop d₂ c p lhsArr rhsArr keys := by
  induction keys with
  | nil => rfl
  | cons k rest ih =>
    unfold strictArrayLoop
    rw [strictArrayItem_congr h, ih]

theorem inclusiveObjectLoop_congr {d₁ d₂ : DiffFn} {c : Config} {p : PathRef}
    {rhsV : Value} {lhsEntries : List (String × Value)}
    {items : List (String × Value)}
    (h : ∀ kv ∈ items, ∀ l, objGet lhsEntries kv.1 = some l →
      ∀ p', d₁ l kv.2 c p' = d₂ l kv.2 c p') :
    inclusiveObjectLoop d₁ c p rhsV lhsEntries items
      = inclusiveObjectLoop d₂ c p rhsV lhsEntries items := by
  induction items with
  | nil => rfl
  | cons kv rest ih =>
    obtain ⟨k, r⟩ := kv
    unfold inclusiveObjectLoop
    have hhead :
        (match objGet lhsEntries k with
          | some l => d₁ l r c (p.append (.Field k))
          | none => some [mkRecord (p.append (.Field k)) none (some rhsV) c])
        = (match objGet lhsEntries k with
          | some l => d₂ l r c (p.append (.Field k))
          | none => some [mkRecord (p.append (.Field k)) none (some rhsV) c]) := by
      rcases hg : objGet lhsEntries k with _ | l
      · rfl
      · exact h (k, r) (List.mem_cons_self _ rest) l hg _
    rw [hhead, ih (fun z hz => h z (List.mem_cons_of_mem _ hz))]

theorem strictObjectItem_congr {d₁ d₂ : DiffFn} {c : Config} {p : PathRef}
    {lhsEntries rhsEntries : List (String × Value)} {k : String}
    (h : ∀ l, objGet lhsEntries k = some l → ∀ r, objGet rhsEntries k = some r →
      ∀ p', d₁ l r c p' = d₂ l r c p') :
    strictObjectItem d₁ c p lhsEntries rhsEntries k
      = strictObjectItem d₂ c p lhsEntries rhsEntries k := by
  unfold strictObjectItem
  rcases hl : objGet lhsEntries k with _ | l <;>
    rcases hr : objGet rhsEntries k with _ | r
  · rfl
  · rfl
  · rfl
  · exact h l hl r hr _

theorem strictObjectLoop_congr {d₁ d₂ : DiffFn} {c : Config} {p : PathRef}
    {lhsEntries rhsEntries : List (String × Value)} {keys : List String}
    (h : ∀ l, (∃ k, objGet lhsEntries k = some l) →
      ∀ r, (∃ k, objGet rhsEntries k = some r) → ∀ p', d₁ l r c p' = d₂ l r c p') :
    strictObjectLoop d₁ c p lhsEntries rhsEntries keys
      = strictObjectLoop d₂ c p lhsEntries rhsEntries keys := by
  induction keys with
  | nil => rfl
  | cons k rest ih =>
    unfold strictObjectLoop
    rw [strictObjectItem_congr fun l hl r hr p' => h l ⟨k, hl⟩ r ⟨k, hr⟩ p', ih]

theorem Value.as_array_eq_some {v : Value} {xs : List Value}
    (h : v.as_array = some xs) : v = .arr xs := by
  cases v <;> simp [Value.as_array] at h
  rw [h]

theorem Value.as_object_eq_some {v : Value} {es : List (String × Value)}
    (h : v.as_object = some es) : v = .obj es := by
  cases v <;> simp [Value.as_object] at h
  rw [h]

theorem onArrayContains_congr {d₁ d₂ : DiffFn} {c : Config} {p : PathRef}
    {lhsV rhsV : Value}
    (h : ∀ a b, a.vsize < max lhsV.vsize rhsV.vsize →
      b.vsize < max lhsV.vsize rhsV.vsize → ∀ p', d₁ a b c p' = d₂ a b c p') :
    onArrayContains d₁ c p lhsV rhsV = onArrayContains d₂ c p lhsV rhsV := by
  unfold onArrayContains
  rcases hr : rhsV.as_array with _ | rhs
  · rfl
  · rcases hl : lhsV.as_array with _ | lhsArr
    · rfl
    · have hrV : rhsV = .arr rhs := Value.as_array_eq_some hr
      have hlV : lhsV = .arr lhsArr := Value.as_array_eq_some hl
      have hmemR : ∀ x ∈ rhs, x.vsize < max lhsV.vsize rhsV.vsize := by
        intro x hx
        have := Value.vsize_lt_arr hx
        rw [← hrV] at this
        omega
      have hmemL : ∀ x ∈ lhsArr, x.vsize < max lhsV.vsize rhsV.vsize := by
        intro x hx
        have := Value.vsize_lt_arr hx
        rw [← hlV] at this
        omega
      have hloop := @containsLoop_congr d₁ d₂ c p lhsV rhsV lhsArr rhs rhs
        (fun it hit x hx => h it x (hmemR it hit) (hmemR x hx) _)
        (fun it hit x hx => h x it (hmemL x hx) (hmemR it hit) _)
      dsimp only
      split
      · rfl
      · exact hloop

end SerdeJsonAssert

namespace SerdeJsonAssert

theorem onArray_congr {d₁ d₂ : DiffFn} {c : Config} {p : PathRef}
    {lhsV rhsV : Value}
    (h : ∀ a b, a.vsize < max lhsV.vsize rhsV.vsize →
      b.vsize < max lhsV.vsize rhsV.vsize → ∀ p', d₁ a b c p' = d₂ a b c p') :
    onArray d₁ c p lhsV rhsV = onArray d₂ c p lhsV rhsV := by
  unfold onArray
  split
  · exact onArrayContains_congr h
  · rcases hr : rhsV.as_array with _ | rhsArr
    · rfl
    · rcases hl : lhsV.as_array with _ | lhsArr
      · rfl
      · have hrV : rhsV = .arr rhsArr := Value.as_array_eq_some hr
        have hlV : lhsV = .arr lhsArr := Value.as_array_eq_some hl
        have hmemR : ∀ x ∈ rhsArr, x.vsize < max lhsV.vsize rhsV.vsize := by
          intro x hx
          have := Value.vsize_lt_arr hx
          rw [← hrV] at this
          omega
        have hmemL : ∀ x ∈ lhsArr, x.vsize < max lhsV.vsize rhsV.vsize := by
          intro x hx
          have := Value.vsize_lt_arr hx
          rw [← hlV] at this
          omega
        dsimp only
        cases c.compare_mode with
        | Inclusive =>
          exact inclusiveArrayLoop_congr
            (fun x hx r hr' p' => h x r (hmemL x hx) (hmemR r hr') p') 0
        | Strict =>
          exact strictArrayLoop_congr
            (fun x hx y hy p' => h x y (hmemL x hx) (hmemR y hy) p')

theorem onObject_congr {d₁ d₂ : DiffFn} {c : Config} {p : PathRef}
    {lhsV rhsV : Value}
    (h : ∀ a b, a.vsize < max lhsV.vsize rhsV.vsize →
      b.vsize < max lhsV.vsize rhsV.vsize → ∀ p', d₁ a b c p' = d₂ a b c p') :
    onObject d₁ c p lhsV rhsV = onObject d₂ c p lhsV rhsV := by
  unfold onObject
  rcases hr : rhsV.as_object with _ | rhsEntries
  · rfl
  · rcases hl : lhsV.as_object with _ | lhsEntries
    · rfl
    · have hrV : rhsV = .obj rhsEntries := Value.as_object_eq_some hr
      have hlV : lhsV = .obj lhsEntries := Value.as_object_eq_some hl
      have hmemR : ∀ r, (∃ k, objGet rhsEntries k = some r) →
          r.vsize < max lhsV.vsize rhsV.vsize := by
        rintro r ⟨k, hk⟩
        have := Value.vsize_lt_of_objGet hk
        rw [← hrV] at this
        omega
      have hmemL : ∀ l, (∃ k, objGet lhsEntries k = some l) →
          l.vsize < max lhsV.vsize rhsV.vsize := by
        rintro l ⟨k, hk⟩
        have := Value.vsize_lt_of_objGet hk
        rw [← hlV] at this
        omega
      dsimp only
      cases c.compare_mode with
      | Inclusive =>
        refine inclusiveObjectLoop_congr fun kv hkv l hg p' => ?_
        have hl' := hmemL l ⟨kv.1, hg⟩
        have hr' : kv.2.vsize < max lhsV.vsize rhsV.vsize := by
          have := Value.vsize_lt_obj hkv
          rw [← hrV] at this
          omega
        exact h l kv.2 hl' hr' p'
      | Strict =>
        exact strictObjectLoop_congr
          (fun l hl' r hr' p' => h l r (hmemL l hl') (hmemR r hr') p')

/-- One fuel step is irrelevant once the fuel dominates the input
sizes. -/
theorem diffFuel_succ :
    ∀ fuel l r c p, max l.vsize r.vsize < fuel →
      diffFuel (fuel + 1) l r c p = diffFuel fuel l r c p := by
  intro fuel
  induction fuel with
  | zero =>
    intro l r c p h
    exact absurd h (Nat.not_lt_zero _)
  | succ f ih =>
    intro l r c p h
    have hd : ∀ a b, a.vsize < max l.vsize r.vsize →
        b.vsize < max l.vsize r.vsize → ∀ p',
        diffFuel (f + 1) a b c p' = diffFuel f a b c p' := by
      intro a b ha hb p'
      exact ih a b c p' (by omega)
    show diffFuel (f + 1 + 1) l r c p = diffFuel (f + 1) l r c p
    cases l with
    | null => rfl
    | bool x => rfl
    | number x => rfl
    | str x => rfl
    | arr items =>
      show onArray (diffFuel (f + 1)) c p (.arr items) r
        = onArray (diffFuel f) c p (.arr items) r
      exact onArray_congr hd
    | obj entries =>
      show onObject (diffFuel (f + 1)) c p (.obj entries) r
        = onObject (diffFuel f) c p (.obj entries) r
      exact onObject_congr hd

/-- The fuel is irrelevant, as long as it exceeds the size of both
inputs. -/
theorem diffFuel_fuel_irrel {f g : Nat} (l r : Value) (c : Config) (p : PathRef)
    (hf : max l.vsize r.vsize < f) (hg : max l.vsize r.vsize < g) :
    diffFuel f l r c p = diffFuel g l r c p := by
  have step : ∀ k b, max l.vsize r.vsize < b →
      diffFuel (b + k) l r c p = diffFuel b l r c p := by
    intro k
    induction k with
    | zero => intro b hb; rfl
    | succ k ihk =>
      intro b hb
      have h1 : b + (k + 1) = (b + k) + 1 := by omega
      rw [h1, diffFuel_succ (b + k) l r c p (by omega), ihk b hb]
  rcases Nat.le_total f g with hle | hle
  · have : g = f + (g - f) := by omega
    rw [this, step (g - f) f hf]
  · have : f = g + (f - g) := by omega
    rw [this, step (f - g) g hg]

end SerdeJsonAssert

namespace SerdeJsonAssert

/-! ## The comparator never panics: the embedded `Option` is always
`some` when the callback is, the `unreachable!` key case being excluded
by the construction of the key sets. -/

theorem Value.as_f64_isSome_of_is_f64 {v : Value} (h : v.is_f64 = true) :
    v.as_f64.isSome := by
  cases v with
  | number n =>
    cases n with
    | int n => simp [Value.is_f64, Number.is_f64] at h
    | float q => simp [Value.as_f64, Number.as_f64]
  | null | bool | str | arr | obj => simp [Value.is_f64] at h

theorem eq_values_isSome (c : Config) (a b : Value) : (eq_values c a b).isSome := by
  unfold eq_values
  split
  · rename_i hf
    rw [Bool.and_eq_true] at hf
    obtain ⟨qa, hqa⟩ := Option.isSome_iff_exists.mp
      (Value.as_f64_isSome_of_is_f64 hf.1)
    obtain ⟨qb, hqb⟩ := Option.isSome_iff_exists.mp
      (Value.as_f64_isSome_of_is_f64 hf.2)
    rw [hqa, hqb]
    rfl
  · rfl

theorem onNumber_isSome (c : Config) (p : PathRef) (a b : Value) :
    (onNumber c p a b).isSome := by
  unfold onNumber
  cases c.numeric_mode with
  | Strict =>
    obtain ⟨v, hv⟩ := Option.isSome_iff_exists.mp (eq_values_isSome c a b)
    rw [hv]
    dsimp only
    split <;> rfl
  | AssumeFloat =>
    dsimp only
    rcases a.as_f64 with _ | qa <;> rcases b.as_f64 with _ | qb <;>
      dsimp only <;> split <;> rfl

theorem countMatchesAsLhs_isSome {d : DiffFn} {c : Config} {item : Value}
    {xs : List Value} (h : ∀ x ∈ xs, (d item x c .Root).isSome) :
    (countMatchesAsLhs d c item xs).isSome := by
  induction xs with
  | nil => rfl
  | cons x xs ih =>
    unfold countMatchesAsLhs
    obtain ⟨v, hv⟩ := Option.isSome_iff_exists.mp (h x (List.mem_cons_self x xs))
    rw [hv]
    obtain ⟨n, hn⟩ := Option.isSome_iff_exists.mp
      (ih fun z hz => h z (List.mem_cons_of_mem x hz))
    rw [hn]
    rfl

theorem countMatchesAsRhs_isSome {d : DiffFn} {c : Config} {item : Value}
    {xs : List Value} (h : ∀ x ∈ xs, (d x item c .Root).isSome) :
    (countMatchesAsRhs d c item xs).isSome := by
  induction xs with
  | nil => rfl
  | cons x xs ih =>
    unfold countMatchesAsRhs
    obtain ⟨v, hv⟩ := Option.isSome_iff_exists.mp (h x (List.mem_cons_self x xs))
    rw [hv]
    obtain ⟨n, hn⟩ := Option.isSome_iff_exists.mp
      (ih fun z hz => h z (List.mem_cons_of_mem x hz))
    rw [hn]
    rfl

theorem containsLoop_isSome {d : DiffFn} {c : Config} {p : PathRef}
    {lhsV rhsV : Value} {lhsArr rhsFull items : List Value}
    (h₁ : ∀ it ∈ items, ∀ x ∈ rhsFull, (d it x c .Root).isSome)
    (h₂ : ∀ it ∈ items, ∀ x ∈ lhsArr, (d x it c .Root).isSome) :
    (containsLoop d c p lhsV rhsV lhsArr rhsFull items).isSome := by
  induction items with
  | nil => rfl
  | cons it rest ih =>
    unfold containsLoop
    obtain ⟨need, hneed⟩ := Option.isSome_iff_exists.mp
      (countMatchesAsLhs_isSome (h₁ it (List.mem_cons_self it rest)))
    rw [hneed]
    obtain ⟨matching, hmatching⟩ := Option.isSome_iff_exists.mp
      (countMatchesAsRhs_isSome (h₂ it (List.mem_cons_self it rest)))
    rw [hmatching]
    dsimp only
    split
    · rfl
    · exact ih (fun z hz => h₁ z (List.mem_cons_of_mem it hz))
        (fun z hz => h₂ z (List.mem_cons_of_mem it hz))

theorem inclusiveArrayLoop_isSome {d : DiffFn} {c : Config} {p : PathRef}
    {rhsV : Value} {lhsArr items : List Value}
    (h : ∀ x ∈ lhsArr, ∀ r ∈ items, ∀ p', (d x r c p').isSome) :
    ∀ idx, (inclusiveArrayLoop d c p rhsV lhsArr idx items).isSome := by
  induction items with
  | nil => intro idx; rfl
  | cons r rest ih =>
    intro idx
    unfold inclusiveArrayLoop
    have hhead :
        (match lhsArr.get? idx with
          | some l => d l r c (p.append (.Idx idx))
          | none => some [mkRecord (p.append (.Idx idx)) none (some rhsV) c]).isSome := by
      rcases hg : lhsArr.get? idx with _ | l
      · rfl
      · exact h l (List.get?_mem hg) r (List.mem_cons_self r rest) _
    obtain ⟨here, hhere⟩ := Option.isSome_iff_exists.mp hhead
    rw [hhere]
    obtain ⟨tail, htail⟩ := Option.isSome_iff_exists.mp
      (ih (fun x hx r' hr' p' => h x hx r' (List.mem_cons_of_mem r hr') p') (idx + 1))
    rw [htail]
    rfl

theorem strictArrayItem_isSome {d : DiffFn} {c : Config} {p : PathRef}
    {lhsArr rhsArr : List Value} {k : Nat}
    (h : ∀ x ∈ lhsArr, ∀ y ∈ rhsArr, ∀ p', (d x y c p').isSome)
    (hk : k < lhsArr.length ∨ k < rhsArr.length) :
    (strictArrayItem d c p lhsArr rhsArr k).isSome := by
  unfold strictArrayItem
  rcases hl : lhsArr.get? k with _ | l <;> rcases hr : rhsArr.get? k with _ | r
  · exfalso
    rcases hk with hk | hk
    · have := get?_isSome_iff.mpr hk
      rw [hl] at this
      cases this
    · have := get?_isSome_iff.mpr hk
      rw [hr] at this
      cases this
  · rfl
  · rfl
  · exact h l (List.get?_mem hl) r (List.get?_mem hr) _

theorem strictArrayLoop_isSome {d : DiffFn} {c : Config} {p : PathRef}
    {lhsArr rhsArr : List Value} {keys : List Nat}
    (h : ∀ x ∈ lhsArr, ∀ y ∈ rhsArr, ∀ p', (d x y c p').isSome)
    (hks : ∀ k ∈ keys, k < lhsArr.length ∨ k < rhsArr.length) :
    (strictArrayLoop d c p lhsArr rhsArr keys).isSome := by
  induction keys with
  | nil => rfl
  | cons k rest ih =>
    unfold strictArrayLoop
    obtain ⟨here, hhere⟩ := Option.isSome_iff_exists.mp
      (strictArrayItem_isSome h (hks k (List.mem_cons_self k rest)))
    rw [hhere]
    obtain ⟨tail, htail⟩ := Option.isSome_iff_exists.mp
      (ih fun z hz => hks z (List.mem_cons_of_mem k hz))
    rw [htail]
    rfl

theorem inclusiveObjectLoop_isSome {d : DiffFn} {c : Config} {p : PathRef}
    {rhsV : Value} {lhsEntries items : List (String × Value)}
    (h : ∀ kv ∈ items, ∀ l, objGet lhsEntries kv.1 = some l →
      ∀ p', (d l kv.2 c p').isSome) :
    (inclusiveObjectLoop d c p rhsV lhsEntries items).isSome := by
  induction items with
  | nil => rfl
  | cons kv rest ih =>
    obtain ⟨k, r⟩ := kv
    unfold inclusiveObjectLoop
    have hhead :
        (match objGet lhsEntries k with
          | some l => d l r c (p.append (.Field k))
          | none => some [mkRecord (p.append (.Field k)) none (some rhsV) c]).isSome := by
      rcases hg : objGet lhsEntries k with _ | l
      · rfl
      · exact h (k, r) (List.mem_cons_self _ rest) l hg _
    obtain ⟨here, hhere⟩ := Option.isSome_iff_exists.mp hhead
    rw [hhere]
    obtain ⟨tail, htail⟩ := Option.isSome_iff_exists.mp
      (ih fun z hz => h z (List.mem_cons_of_mem _ hz))
    rw [htail]
    rfl

theorem strictObjectItem_isSome {d : DiffFn} {c : Config} {p : PathRef}
    {lhsEntries rhsEntries : List (String × Value)} {k : String}
    (h : ∀ l, objGet lhsEntries k = some l → ∀ r, objGet rhsEntries k = some r →
      ∀ p', (d l r c p').isSome)
    (hk : (objGet lhsEntries k).isSome ∨ (objGet rhsEntries k).isSome) :
    (strictObjectItem d c p lhsEntries rhsEntries k).isSome := by
  unfold strictObjectItem
  rcases hl : objGet lhsEntries k with _ | l <;>
    rcases hr : objGet rhsEntries k with _ | r
  · exfalso
    rcases hk with hk | hk
    · rw [hl] at hk
      cases hk
    · rw [hr] at hk
      cases hk
  · rfl
  · rfl
  · exact h l hl r hr _

theorem strictObjectLoop_isSome {d : DiffFn} {c : Config} {p : PathRef}
    {lhsEntries rhsEntries : List (String × Value)} {keys : List String}
    (h : ∀ l, (∃ k, objGet lhsEntries k = some l) →
      ∀ r, (∃ k, objGet rhsEntries k = some r) → ∀ p', (d l r c p').isSome)
    (hks : ∀ k ∈ keys,
      (objGet lhsEntries k).isSome ∨ (objGet rhsEntries k).isSome) :
    (strictObjectLoop d c p lhsEntries rhsEntries keys).isSome := by
  induction keys with
  | nil => rfl
  | cons k rest ih =>
    unfold strictObjectLoop
    obtain ⟨here, hhere⟩ := Option.isSome_iff_exists.mp
      (strictObjectItem_isSome (fun l hl r hr p' => h l ⟨k, hl⟩ r ⟨k, hr⟩ p')
        (hks k (List.mem_cons_self k rest)))
    rw [hhere]
    obtain ⟨tail, htail⟩ := Option.isSome_iff_exists.mp
      (ih fun z hz => hks z (List.mem_cons_of_mem k hz))
    rw [htail]
    rfl

end SerdeJsonAssert

namespace SerdeJsonAssert

theorem directCompare_isSome (c : Config) (p : PathRef) (a b : Value) :
    (directCompare c p a b).isSome := by
  unfold directCompare
  split <;> rfl

theorem onArrayContains_isSome {d : DiffFn} {c : Config} {p : PathRef}
    {items : List Value} {rhsV : Value}
    (h : ∀ a b, a.vsize < max (Value.arr items).vsize rhsV.vsize →
      b.vsize < max (Value.arr items).vsize rhsV.vsize →
      ∀ p', (d a b c p').isSome) :
    (onArrayContains d c p (.arr items) rhsV).isSome := by
  unfold onArrayContains
  rcases hr : rhsV.as_array with _ | rhs
  · rfl
  · have hrV : rhsV = .arr rhs := Value.as_array_eq_some hr
    have hmemR : ∀ x ∈ rhs, x.vsize < max (Value.arr items).vsize rhsV.vsize := by
      intro x hx
      have := Value.vsize_lt_arr hx
      rw [← hrV] at this
      omega
    have hmemL : ∀ x ∈ items, x.vsize < max (Value.arr items).vsize rhsV.vsize := by
      intro x hx
      have := @Value.vsize_lt_arr x items hx
      omega
    dsimp only [Value.as_array]
    split
    · rfl
    · exact containsLoop_isSome
        (fun it hit x hx => h it x (hmemR it hit) (hmemR x hx) _)
        (fun it hit x hx => h x it (hmemL x hx) (hmemR it hit) _)

theorem onArray_isSome {d : DiffFn} {c : Config} {p : PathRef}
    {items : List Value} {rhsV : Value}
    (h : ∀ a b, a.vsize < max (Value.arr items).vsize rhsV.vsize →
      b.vsize < max (Value.arr items).vsize rhsV.vsize →
      ∀ p', (d a b c p').isSome) :
    (onArray d c p (.arr items) rhsV).isSome := by
  unfold onArray
  split
  · exact onArrayContains_isSome h
  · rcases hr : rhsV.as_array with _ | rhsArr
    · rfl
    · have hrV : rhsV = .arr rhsArr := Value.as_array_eq_some hr
      have hmemR : ∀ x ∈ rhsArr,
          x.vsize < max (Value.arr items).vsize rhsV.vsize := by
        intro x hx
        have := Value.vsize_lt_arr hx
        rw [← hrV] at this
        omega
      have hmemL : ∀ x ∈ items,
          x.vsize < max (Value.arr items).vsize rhsV.vsize := by
        intro x hx
        have := @Value.vsize_lt_arr x items hx
        omega
      dsimp only [Value.as_array]
      cases c.compare_mode with
      | Inclusive =>
        exact inclusiveArrayLoop_isSome
          (fun x hx r hr' p' => h x r (hmemL x hx) (hmemR r hr') p') 0
      | Strict =>
        refine strictArrayLoop_isSome
          (fun x hx y hy p' => h x y (hmemL x hx) (hmemR y hy) p') ?_
        intro k hk
        have := mem_allIndexes.mp hk
        omega

theorem onObject_isSome {d : DiffFn} {c : Config} {p : PathRef}
    {entries : List (String × Value)} {rhsV : Value}
    (h : ∀ a b, a.vsize < max (Value.obj entries).vsize rhsV.vsize →
      b.vsize < max (Value.obj entries).vsize rhsV.vsize →
      ∀ p', (d a b c p').isSome) :
    (onObject d c p (.obj entries) rhsV).isSome := by
  unfold onObject
  rcases hr : rhsV.as_object with _ | rhsEntries
  · rfl
  · have hrV : rhsV = .obj rhsEntries := Value.as_object_eq_some hr
    have hmemR : ∀ r, (∃ k, objGet rhsEntries k = some r) →
        r.vsize < max (Value.obj entries).vsize rhsV.vsize := by
      rintro r ⟨k, hk⟩
      have := Value.vsize_lt_of_objGet hk
      rw [← hrV] at this
      omega
    have hmemL : ∀ l, (∃ k, objGet entries k = some l) →
        l.vsize < max (Value.obj entries).vsize rhsV.vsize := by
      rintro l ⟨k, hk⟩
      have := @Value.vsize_lt_of_objGet entries k _ hk
      omega
    dsimp only [Value.as_object]
    cases c.compare_mode with
    | Inclusive =>
      refine inclusiveObjectLoop_isSome fun kv hkv l hg p' => ?_
      have hl' := hmemL l ⟨kv.1, hg⟩
      have hr' : kv.2.vsize < max (Value.obj entries).vsize rhsV.vsize := by
        have := Value.vsize_lt_obj hkv
        rw [← hrV] at this
        omega
      exact h l kv.2 hl' hr' p'
    | Strict =>
      refine strictObjectLoop_isSome
        (fun l hl' r hr' p' => h l r (hmemL l hl') (hmemR r hr') p') ?_
      intro k hk
      rcases mem_allObjKeys.mp hk with hk | hk
      · exact Or.inr (objGet_isSome_of_mem_keys hk)
      · exact Or.inl (objGet_isSome_of_mem_keys hk)

/-- With fuel exceeding the sizes, the comparator never hits a panic
branch: the result is `some`. -/
theorem diffFuel_isSome_of_lt :
    ∀ fuel l r c p, max l.vsize r.vsize < fuel → (diffFuel fuel l r c p).isSome := by
  intro fuel
  induction fuel with
  | zero =>
    intro l r c p h
    exact absurd h (Nat.not_lt_zero _)
  | succ f ih =>
    intro l r c p h
    cases l with
    | null => exact directCompare_isSome c p _ r
    | bool x => exact directCompare_isSome c p _ r
    | number x => exact onNumber_isSome c p _ r
    | str x => exact directCompare_isSome c p _ r
    | arr items =>
      refine onArray_isSome fun a b ha hb p' => ih a b c p' ?_
      omega
    | obj entries =>
      refine onObject_isSome fun a b ha hb p' => ih a b c p' ?_
      omega

theorem diffOpt_isSome (l r : Value) (c : Config) : (diffOpt l r c).isSome :=
  diffFuel_isSome_of_lt _ l r c _ (by unfold fuelFor; omega)

theorem diffOpt_eq_some (l r : Value) (c : Config) :
    diffOpt l r c = some (diff l r c) := by
  unfold diff
  rcases h : diffOpt l r c with _ | out
  · have := diffOpt_isSome l r c
    rw [h] at this
    cases this
  · rfl

theorem diffFuel_eq_some_diff {fuel : Nat} (l r : Value) (c : Config)
    (h : max l.vsize r.vsize < fuel) :
    diffFuel fuel l r c .Root = some (diff l r c) := by
  rw [diffFuel_fuel_irrel l r c .Root h (show max l.vsize r.vsize < fuelFor l r by unfold fuelFor; omega)]
  exact diffOpt_eq_some l r c

end SerdeJsonAssert

namespace SerdeJsonAssert

/-! ## Well-formed values

The spec's value model has unique keys in every object (`serde_json`
maps cannot hold duplicates); the entry-sequence embedding records this
as a predicate. -/

mutual
def Value.wf : Value → Bool
  | .null => true
  | .bool _ => true
  | .number _ => true
  | .str _ => true
  | .arr xs => Value.wfList xs
  | .obj es => decide (objKeys es).Nodup && Value.wfEntries es

def Value.wfList : List Value → Bool
  | [] => true
  | x :: xs => x.wf && Value.wfList xs

def Value.wfEntries : List (String × Value) → Bool
  | [] => true
  | (_, v) :: es => v.wf && Value.wfEntries es
end

theorem Value.wf_of_mem {x : Value} {xs : List Value}
    (hwf : Value.wfList xs = true) (h : x ∈ xs) : x.wf = true := by
  induction xs with
  | nil => cases h
  | cons a as ih =>
    rw [Value.wfList, Bool.and_eq_true] at hwf
    rcases List.mem_cons.mp h with rfl | h'
    · exact hwf.1
    · exact ih hwf.2 h'

theorem Value.wf_of_entry_mem {kv : String × Value} {es : List (String × Value)}
    (hwf : Value.wfEntries es = true) (h : kv ∈ es) : kv.2.wf = true := by
  induction es with
  | nil => cases h
  | cons a as ih =>
    obtain ⟨k, v⟩ := a
    rw [Value.wfEntries, Bool.and_eq_true] at hwf
    rcases List.mem_cons.mp h with rfl | h'
    · exact hwf.1
    · exact ih hwf.2 h'

theorem objGet_of_nodup_mem {es : List (String × Value)} {k : String} {v : Value}
    (hnd : (objKeys es).Nodup) (h : (k, v) ∈ es) : objGet es k = some v := by
  induction es with
  | nil => cases h
  | cons a as ih =>
    obtain ⟨k', v'⟩ := a
    rw [objKeys, List.map_cons, List.nodup_cons] at hnd
    rcases List.mem_cons.mp h with heq | h'
    · rw [objGet]
      cases heq
      simp [List.find?]
    · have hk : k' ≠ k := by
        intro heq
        subst heq
        exact hnd.1 (List.mem_map.mpr ⟨(k', v), h', rfl⟩)
      rw [objGet, List.find?]
      have : (decide ((k', v').1 = k)) = false := by
        simp [hk]
      rw [this]
      exact ih hnd.2 h'

/-! ## Reflexivity -/

theorem eq_floats_self (c : Config) (q : ℚ) : eq_floats c q q = true := by
  unfold eq_floats
  split <;> simp

theorem onNumber_refl (c : Config) (p : PathRef) (v : Value) :
    onNumber c p v v = some [] := by
  unfold onNumber
  cases c.numeric_mode with
  | Strict =>
    have h : eq_values c v v = some true := by
      unfold eq_values
      split
      · rename_i hf
        rw [Bool.and_eq_true] at hf
        obtain ⟨q, hq⟩ := Option.isSome_iff_exists.mp
          (Value.as_f64_isSome_of_is_f64 hf.1)
        rw [hq]
        dsimp only
        rw [eq_floats_self]
      · simp
    rw [h]
    rfl
  | AssumeFloat =>
    dsimp only
    rcases v.as_f64 with _ | q
    · simp
    · dsimp only
      rw [eq_floats_self]
      rfl

theorem inclusiveArrayLoop_refl {d : DiffFn} {c : Config} {p : PathRef}
    {rhsV : Value} {la : List Value}
    (h : ∀ x ∈ la, ∀ p', d x x c p' = some []) :
    ∀ items idx, (∀ j, items.get? j = la.get? (idx + j)) →
      inclusiveArrayLoop d c p rhsV la idx items = some [] := by
  intro items
  induction items with
  | nil => intro idx hj; rfl
  | cons r rest ih =>
    intro idx hj
    unfold inclusiveArrayLoop
    have h0 : la.get? idx = some r := by
      have := hj 0
      simpa using this.symm
    rw [h0]
    dsimp only
    rw [h r (List.get?_mem h0) (p.append (.Idx idx))]
    have htail := ih (idx + 1) fun j => by
      have := hj (j + 1)
      simpa [Nat.add_assoc, Nat.add_comm 1 j] using this
    rw [htail]
    rfl

theorem strictArrayLoop_refl {d : DiffFn} {c : Config} {p : PathRef}
    {la : List Value}
    (h : ∀ x ∈ la, ∀ p', d x x c p' = some []) :
    ∀ keys, (∀ k ∈ keys, k < la.length) →
      strictArrayLoop d c p la la keys = some [] := by
  intro keys
  induction keys with
  | nil => intro hks; rfl
  | cons k rest ih =>
    intro hks
    unfold strictArrayLoop
    rcases hg : la.get? k with _ | x
    · exfalso
      have hk := hks k (List.mem_cons_self k rest)
      have := get?_isSome_iff.mpr hk
      rw [hg] at this
      cases this
    · have hitem : strictArrayItem d c p la la k = some [] := by
        unfold strictArrayItem
        rw [hg]
        exact h x (List.get?_mem hg) _
      rw [hitem, ih fun z hz => hks z (List.mem_cons_of_mem k hz)]
      rfl

theorem inclusiveObjectLoop_refl {d : DiffFn} {c : Config} {p : PathRef}
    {rhsV : Value} {es : List (String × Value)}
    (hnd : (objKeys es).Nodup)
    (h : ∀ kv ∈ es, ∀ p', d kv.2 kv.2 c p' = some []) :
    ∀ items, (∀ kv ∈ items, kv ∈ es) →
      inclusiveObjectLoop d c p rhsV es items = some [] := by
  intro items
  induction items with
  | nil => intro hsub; rfl
  | cons kv rest ih =>
    intro hsub
    obtain ⟨k, r⟩ := kv
    unfold inclusiveObjectLoop
    have hmem : (k, r) ∈ es := hsub (k, r) (List.mem_cons_self _ rest)
    rw [objGet_of_nodup_mem hnd hmem]
    dsimp only
    rw [h (k, r) hmem (p.append (.Field k))]
    rw [ih fun z hz => hsub z (List.mem_cons_of_mem _ hz)]
    rfl

theorem strictObjectLoop_refl {d : DiffFn} {c : Config} {p : PathRef}
    {es : List (String × Value)}
    (h : ∀ kv ∈ es, ∀ p', d kv.2 kv.2 c p' = some []) :
    ∀ keys, (∀ k ∈ keys, k ∈ objKeys es) →
      strictObjectLoop d c p es es keys = some [] := by
  intro keys
  induction keys with
  | nil => intro hks; rfl
  | cons k rest ih =>
    intro hks
    unfold strictObjectLoop
    rcases hg : objGet es k with _ | v
    · exfalso
      have hk := hks k (List.mem_cons_self k rest)
      have := objGet_isSome_of_mem_keys hk
      rw [hg] at this
      cases this
    · have hitem : strictObjectItem d c p es es k = some [] := by
        unfold strictObjectItem
        rw [hg]
        exact h (k, v) (objGet_mem hg) _
      rw [hitem, ih fun z hz => hks z (List.mem_cons_of_mem k hz)]
      rfl

/-- The comparator on two structurally identical well-formed values,
positional arrays assumed, finds nothing. -/
theorem diffFuel_refl :
    ∀ fuel (v : Value) (c : Config) (p : PathRef),
      c.array_sorting_mode = .Exact → v.wf = true → v.vsize < fuel →
      diffFuel fuel v v c p = some [] := by
  intro fuel
  induction fuel with
  | zero =>
    intro v c p _ _ h
    exact absurd h (Nat.not_lt_zero _)
  | succ f ih =>
    intro v c p hmode hwf h
    cases v with
    | null => show directCompare c p _ _ = some []; rw [directCompare, if_pos rfl]
    | bool x => show directCompare c p _ _ = some []; rw [directCompare, if_pos rfl]
    | str x => show directCompare c p _ _ = some []; rw [directCompare, if_pos rfl]
    | number n => exact onNumber_refl c p _
    | arr items =>
      show onArray (diffFuel f) c p (.arr items) (.arr items) = some []
      have hrec : ∀ x ∈ items, ∀ p', diffFuel f x x c p' = some [] := by
        intro x hx p'
        refine ih x c p' hmode (Value.wf_of_mem ?_ hx) ?_
        · rw [Value.wf] at hwf
          exact hwf
        · have := Value.vsize_lt_arr hx
          omega
      unfold onArray
      rw [if_neg (by rw [hmode]; intro hq; cases hq)]
      dsimp only [Value.as_array]
      cases c.compare_mode with
      | Inclusive =>
        exact inclusiveArrayLoop_refl hrec items 0 fun j => by simp
      | Strict =>
        refine strictArrayLoop_refl hrec _ ?_
        intro k hk
        have := mem_allIndexes.mp hk
        omega
    | obj entries =>
      show onObject (diffFuel f) c p (.obj entries) (.obj entries) = some []
      rw [Value.wf, Bool.and_eq_true, decide_eq_true_eq] at hwf
      have hrec : ∀ kv ∈ entries, ∀ p', diffFuel f kv.2 kv.2 c p' = some [] := by
        intro kv hkv p'
        refine ih kv.2 c p' hmode (Value.wf_of_entry_mem hwf.2 hkv) ?_
        have := Value.vsize_lt_obj hkv
        omega
      unfold onObject
      dsimp only [Value.as_object]
      cases c.compare_mode with
      | Inclusive =>
        exact inclusiveObjectLoop_refl hwf.1 hrec entries fun kv hkv => hkv
      | Strict =>
        refine strictObjectLoop_refl hrec _ ?_
        intro k hk
        rcases mem_allObjKeys.mp hk with hk' | hk' <;> exact hk'

end SerdeJsonAssert

namespace SerdeJsonAssert

/-! ## Claim theorems -/

/-- C9: `compare` never fails on well-formed input: for every pair of
values under any configuration, the size-bounded run terminates with a
(possibly empty) record list and never reaches an embedded panic — the
`(None, None)` arm of the union-of-keys iteration, the
`as_array`/`as_object` unwraps and the float `expect`s all map to a
`none` result, and the result is always `some`. -/
theorem c9_compare_never_fails (l r : Value) (c : Config) :
    diffOpt l r c = some (diff l r c) :=
  diffOpt_eq_some l r c

/-- C4: reflexivity under Strict mode: for every well-formed value `v`
(objects have unique keys) the comparison of `v` with itself under the
strict configuration produces no discrepancy records. -/
theorem c4_strict_reflexivity (v : Value) (h : v.wf = true) :
    diff v v strictConfig = [] := by
  unfold diff diffOpt
  rw [diffFuel_refl (fuelFor v v) v strictConfig .Root rfl h
    (by unfold fuelFor; omega)]
  rfl

theorem c4_strict_reflexivity_witness :
    (Value.obj [("a", .number (.int 1)), ("b", .arr [.null, .bool true])]).wf
        = true
      ∧ diff (Value.obj [("a", .number (.int 1)), ("b", .arr [.null, .bool true])])
        (Value.obj [("a", .number (.int 1)), ("b", .arr [.null, .bool true])])
        strictConfig = [] :=
  ⟨by decide, c4_strict_reflexivity _ (by decide)⟩

end SerdeJsonAssert

namespace SerdeJsonAssert

/-- Comparing two number leaves is one `on_number` step. -/
theorem diff_number (n m : Number) (c : Config) :
    diff (.number n) (.number m) c
      = (onNumber c .Root (.number n) (.number m)).getD [] := by
  rfl

/-- C3 (amended): under `NumericMode::Strict` the float rule applies
exactly when both numbers are *stored* as floats (`is_f64`); numbers
stored as integers are compared by exact representation equality even
when they convert to floats and fall within an epsilon margin. -/
theorem c3_strict_numeric_dispatch (n m : Number) (c : Config)
    (h : c.numeric_mode = .Strict) :
    diff (.number n) (.number m) c
      = if (match n, m with
          | .float a, .float b => eq_floats c a b
          | _, _ => decide (n = m))
        then [] else [mkRecord .Root (some (.number n)) (some (.number m)) c] := by
  rw [diff_number]
  unfold onNumber
  rw [h]
  dsimp only
  unfold eq_values
  cases n <;> cases m <;>
    simp [Value.is_f64, Number.is_f64, Value.as_f64, Number.as_f64] <;>
    split <;> simp_all

theorem c3_strict_numeric_dispatch_witness :
    diff (.number (.float 1)) (.number (.float 1)) strictConfig = [] := by
  rw [c3_strict_numeric_dispatch (.float 1) (.float 1) strictConfig rfl]
  decide

/-- C3's counterexample: with strict numeric mode and `Epsilon 2`, the
numbers `2` and `1` are both float-representable (`as_f64` succeeds)
and lie within the margin, yet a record is produced — the code
dispatches on the stored representation (`is_f64`), not on
convertibility. -/
theorem c3_counterexample :
    ((Value.number (.int 2)).as_f64.isSome ∧ (Value.number (.int 1)).as_f64.isSome)
    ∧ |(2 : ℚ) - 1| ≤ 2
    ∧ diff (.number (.int 2)) (.number (.int 1))
        { compare_mode := .Inclusive, array_sorting_mode := .Exact,
          numeric_mode := .Strict, float_compare_mode := .Epsilon 2 } ≠ [] :=
  ⟨⟨by decide, by decide⟩, (ratWithin_iff_abs_le 2 1 2).mp (by decide), by decide⟩

/-- C5 (amended): under `NumericMode::AssumeFloat` both sides are
converted; if both conversions succeed the float rule decides,
otherwise the two *conversion results* are compared for equality — so
two numbers that both fail conversion are deemed equal regardless of
their representations.  A mismatch emits exactly one record at the
current path with both sides present. -/
theorem c5_assume_float_dispatch (n m : Number) (c : Config)
    (h : c.numeric_mode = .AssumeFloat) :
    diff (.number n) (.number m) c
      = if (match n.as_f64, m.as_f64 with
          | some a, some b => eq_floats c a b
          | a, b => decide (a = b))
        then [] else [mkRecord .Root (some (.number n)) (some (.number m)) c] := by
  rw [diff_number]
  unfold onNumber
  rw [h]
  dsimp only [Value.as_f64]
  rcases hna : n.as_f64 with _ | a <;> rcases hmb : m.as_f64 with _ | b <;>
    dsimp only <;> split <;> simp_all

theorem c5_assume_float_dispatch_witness :
    diff (.number (.int 1)) (.number (.float 1))
      { compare_mode := .Inclusive, array_sorting_mode := .Exact,
        numeric_mode := .AssumeFloat, float_compare_mode := .Exact } = [] := by
  rw [c5_assume_float_dispatch (.int 1) (.float 1) _ rfl]
  decide

/-- C5's counterexample: two distinct integers outside the float-safe
range both fail conversion; the code then compares the two `None`
results and finds them equal, producing *no* record, where the claim's
fallback to representation equality would produce one. -/
theorem c5_counterexample :
    (Number.int (2 ^ 60)).as_f64 = none
    ∧ (Number.int (2 ^ 60 + 1)).as_f64 = none
    ∧ Number.int (2 ^ 60) ≠ Number.int (2 ^ 60 + 1)
    ∧ diff (.number (.int (2 ^ 60))) (.number (.int (2 ^ 60 + 1)))
        { compare_mode := .Inclusive, array_sorting_mode := .Exact,
          numeric_mode := .AssumeFloat, float_compare_mode := .Exact } = [] :=
  ⟨by decide, by decide, by decide, by decide⟩

end SerdeJsonAssert

namespace SerdeJsonAssert

/-! ## The order-ignoring containment rule (C1) -/

theorem diffOpt_unfold (l r : Value) (c : Config) :
    diffOpt l r c
      = match l with
        | .null => directCompare c .Root l r
        | .bool _ => directCompare c .Root l r
        | .str _ => directCompare c .Root l r
        | .number _ => onNumber c .Root l r
        | .arr _ => onArray (diffFuel (max l.vsize r.vsize)) c .Root l r
        | .obj _ => onObject (diffFuel (max l.vsize r.vsize)) c .Root l r := by
  cases l <;> rfl

theorem countMatchesAsLhs_eq {d : DiffFn} {c : Config} {item : Value}
    {xs : List Value}
    (h : ∀ x ∈ xs, d item x c .Root = some (diff item x c)) :
    countMatchesAsLhs d c item xs
      = some (xs.countP fun x => (diff item x c).isEmpty) := by
  induction xs with
  | nil => rfl
  | cons x xs ih =>
    unfold countMatchesAsLhs
    rw [h x (List.mem_cons_self x xs),
      ih fun z hz => h z (List.mem_cons_of_mem x hz)]
    dsimp only
    rw [List.countP_cons]
    rcases he : (diff item x c).isEmpty with _ | _
    · simp [he]
    · simp [he]

theorem countMatchesAsRhs_eq {d : DiffFn} {c : Config} {item : Value}
    {xs : List Value}
    (h : ∀ x ∈ xs, d x item c .Root = some (diff x item c)) :
    countMatchesAsRhs d c item xs
      = some (xs.countP fun x => (diff x item c).isEmpty) := by
  induction xs with
  | nil => rfl
  | cons x xs ih =>
    unfold countMatchesAsRhs
    rw [h x (List.mem_cons_self x xs),
      ih fun z hz => h z (List.mem_cons_of_mem x hz)]
    dsimp only
    rw [List.countP_cons]
    rcases he : (diff x item c).isEmpty with _ | _
    · simp [he]
    · simp [he]

/-- The expected multiplicity of `e` within the expected array. -/
def needCount (c : Config) (rhsFull : List Value) (e : Value) : Nat :=
  rhsFull.countP fun x => (diff e x c).isEmpty

/-- The number of actual items matching `e`. -/
def haveCount (c : Config) (lhsArr : List Value) (e : Value) : Nat :=
  lhsArr.countP fun x => (diff x e c).isEmpty

theorem containsLoop_eq {d : DiffFn} {c : Config} {p : PathRef}
    {lhsV rhsV : Value} {lhsArr rhsFull : List Value} :
    ∀ {items : List Value},
      (∀ it ∈ items, ∀ x ∈ rhsFull, d it x c .Root = some (diff it x c)) →
      (∀ it ∈ items, ∀ x ∈ lhsArr, d x it c .Root = some (diff x it c)) →
      containsLoop d c p lhsV rhsV lhsArr rhsFull items
        = some (if items.any
              (fun it => decide (haveCount c lhsArr it < needCount c rhsFull it))
            then [mkRecord p (some lhsV) (some rhsV) c] else []) := by
  intro items
  induction items with
  | nil => intro h₁ h₂; rfl
  | cons it rest ih =>
    intro h₁ h₂
    unfold containsLoop
    rw [countMatchesAsLhs_eq (h₁ it (List.mem_cons_self it rest)),
      countMatchesAsRhs_eq (h₂ it (List.mem_cons_self it rest))]
    dsimp only
    rcases hv : decide (haveCount c lhsArr it < needCount c rhsFull it) with _ | _
    · rw [if_neg (by simpa [haveCount, needCount] using of_decide_eq_false hv)]
      rw [ih (fun z hz => h₁ z (List.mem_cons_of_mem it hz))
        (fun z hz => h₂ z (List.mem_cons_of_mem it hz))]
      rw [List.any_cons, hv]
      simp
    · rw [if_pos (by simpa [haveCount, needCount] using of_decide_eq_true hv)]
      rw [List.any_cons, hv]
      simp

/-- C1: with `array_sorting_mode = Ignore` under `Inclusive` mode,
comparing two arrays realizes multiset containment of the right array
in the left: the result is empty exactly when every element of the
right array has at least as many diff-equal matches in the left array
as its own multiplicity within the right array; and on a violation the
whole comparison produces exactly one record at the current path, both
sides being the whole arrays. -/
theorem c1_ignore_multiset_containment (la ra : List Value) (c : Config)
    (hig : c.array_sorting_mode = .Ignore) (hin : c.compare_mode = .Inclusive) :
    (diff (.arr la) (.arr ra) c = []
      ↔ ∀ e ∈ ra, needCount c ra e ≤ haveCount c la e)
    ∧ (diff (.arr la) (.arr ra) c ≠ [] →
      diff (.arr la) (.arr ra) c
        = [mkRecord .Root (some (.arr la)) (some (.arr ra)) c]) := by
  have hfuel : ∀ a b : Value, a.vsize < (Value.arr ra).vsize ∨ a.vsize < (Value.arr la).vsize →
      b.vsize < (Value.arr ra).vsize ∨ b.vsize < (Value.arr la).vsize →
      diffFuel (max (Value.arr la).vsize (Value.arr ra).vsize) a b c .Root
        = some (diff a b c) := by
    intro a b ha hb
    refine diffFuel_eq_some_diff a b c ?_
    rcases ha with ha | ha <;> rcases hb with hb | hb <;> omega
  have hmain : diff (.arr la) (.arr ra) c
      = if ra.any (fun it => decide (haveCount c la it < needCount c ra it))
        then [mkRecord .Root (some (.arr la)) (some (.arr ra)) c] else [] := by
    unfold diff
    rw [diffOpt_unfold]
    dsimp only
    unfold onArray
    rw [if_pos (by rw [hig])]
    unfold onArrayContains
    dsimp only [Value.as_array]
    rw [if_neg (by rw [hin]; rintro ⟨hq, _⟩; cases hq)]
    rw [containsLoop_eq
      (fun it hit x hx => hfuel it x (Or.inl (Value.vsize_lt_arr hit))
        (Or.inl (Value.vsize_lt_arr hx)))
      (fun it hit x hx => hfuel x it (Or.inr (Value.vsize_lt_arr hx))
        (Or.inl (Value.vsize_lt_arr hit)))]
    rfl
  constructor
  · rw [hmain]
    rcases hany : ra.any (fun it => decide (haveCount c la it < needCount c ra it)) with _ | _
    · simp only [Bool.false_eq_true, if_false]
      refine ⟨fun _ e he => ?_, fun _ => trivial⟩
      have h2 := List.any_eq_false.mp hany e he
      simp only [decide_eq_true_eq] at h2
      omega
    · rw [if_pos rfl]
      refine ⟨fun hcontra => absurd hcontra (by simp), fun hall => ?_⟩
      obtain ⟨e, he, hlt⟩ := List.any_eq_true.mp hany
      rw [decide_eq_true_eq] at hlt
      exact absurd (hall e he) (by omega)
  · rw [hmain]
    intro hne
    rcases hany : ra.any (fun it => decide (haveCount c la it < needCount c ra it)) with _ | _
    · rw [hany] at hne
      simp at hne
    · rfl

theorem c1_ignore_multiset_containment_witness :
    diff (.arr [.number (.int 1), .number (.int 1), .number (.int 2)])
        (.arr [.number (.int 1), .number (.int 2)])
        { compare_mode := .Inclusive, array_sorting_mode := .Ignore,
          numeric_mode := .Strict, float_compare_mode := .Exact } = []
    ∧ diff (.arr [.number (.int 1), .number (.int 2)])
        (.arr [.number (.int 1), .number (.int 1), .number (.int 2)])
        { compare_mode := .Inclusive, array_sorting_mode := .Ignore,
          numeric_mode := .Strict, float_compare_mode := .Exact } ≠ [] :=
  ⟨((c1_ignore_multiset_containment _ _ _ rfl rfl).1).mpr (by decide),
   fun h => absurd (((c1_ignore_multiset_containment _ _ _ rfl rfl).1).mp h)
     (by decide)⟩

end SerdeJsonAssert

namespace SerdeJsonAssert

/-! ## Emptiness of the result does not depend on the path argument
(the path only decorates emitted records). -/

theorem seq_eq_nil_iff (h t : DOut) :
    (match h with
      | none => none
      | some here =>
        match t with
        | none => none
        | some tail => some (here ++ tail)) = some ([] : List DifferenceRef)
    ↔ (h = some [] ∧ t = some []) := by
  rcases h with _ | here <;> rcases t with _ | tail <;> simp

theorem directCompare_nil_iff (c : Config) (p q : PathRef) (a b : Value) :
    directCompare c p a b = some [] ↔ directCompare c q a b = some [] := by
  unfold directCompare
  split <;> simp

theorem onNumber_nil_iff (c : Config) (p q : PathRef) (a b : Value) :
    onNumber c p a b = some [] ↔ onNumber c q a b = some [] := by
  unfold onNumber
  cases hnm : c.numeric_mode with
  | Strict =>
    dsimp only
    rcases hv : eq_values c a b with _ | iseq
    · simp
    · dsimp only
      split <;> simp
  | AssumeFloat =>
    dsimp only
    rcases ha : a.as_f64 with _ | qa <;> rcases hb : b.as_f64 with _ | qb <;>
      dsimp only <;> split <;> simp

theorem containsLoop_nil_iff {d : DiffFn} {c : Config} (p q : PathRef)
    {lhsV rhsV : Value} {lhsArr rhsFull : List Value} :
    ∀ items, containsLoop d c p lhsV rhsV lhsArr rhsFull items = some []
      ↔ containsLoop d c q lhsV rhsV lhsArr rhsFull items = some [] := by
  intro items
  induction items with
  | nil => simp [containsLoop]
  | cons it rest ih =>
    unfold containsLoop
    rcases countMatchesAsLhs d c it rhsFull with _ | need
    · simp
    · rcases countMatchesAsRhs d c it lhsArr with _ | matching
      · simp
      · dsimp only
        split
        · simp
        · exact ih

theorem inclusiveArrayLoop_nil_iff {d : DiffFn} {c : Config} (p q : PathRef)
    {rhsV : Value} {lhsArr : List Value} {items : List Value}
    (h : ∀ x ∈ lhsArr, ∀ r ∈ items, ∀ p' q',
      (d x r c p' = some [] ↔ d x r c q' = some [])) :
    ∀ idx, (inclusiveArrayLoop d c p rhsV lhsArr idx items = some []
      ↔ inclusiveArrayLoop d c q rhsV lhsArr idx items = some []) := by
  induction items with
  | nil => intro idx; simp [inclusiveArrayLoop]
  | cons r rest ih =>
    intro idx
    unfold inclusiveArrayLoop
    rw [seq_eq_nil_iff, seq_eq_nil_iff]
    have hhead : ((match lhsArr.get? idx with
        | some l => d l r c (p.append (.Idx idx))
        | none => some [mkRecord (p.append (.Idx idx)) none (some rhsV) c]) = some []
      ↔ (match lhsArr.get? idx with
        | some l => d l r c (q.append (.Idx idx))
        | none => some [mkRecord (q.append (.Idx idx)) none (some rhsV) c]) = some []) := by
      rcases hg : lhsArr.get? idx with _ | l
      · simp
      · exact h l (List.get?_mem hg) r (List.mem_cons_self r rest) _ _
    rw [and_congr hhead
      (ih (fun x hx r' hr' p' q' => h x hx r' (List.mem_cons_of_mem r hr') p' q') (idx + 1))]

theorem strictArrayItem_nil_iff {d : DiffFn} {c : Config} (p q : PathRef)
    {lhsArr rhsArr : List Value} {k : Nat}
    (h : ∀ x ∈ lhsArr, ∀ y ∈ rhsArr, ∀ p' q',
      (d x y c p' = some [] ↔ d x y c q' = some [])) :
    (strictArrayItem d c p lhsArr rhsArr k = some []
      ↔ strictArrayItem d c q lhsArr rhsArr k = some []) := by
  unfold strictArrayItem
  rcases hl : lhsArr.get? k with _ | l <;> rcases hr : rhsArr.get? k with _ | r
  · simp
  · simp
  · simp
  · exact h l (List.get?_mem hl) r (List.get?_mem hr) _ _

theorem strictArrayLoop_nil_iff {d : DiffFn} {c : Config} (p q : PathRef)
    {lhsArr rhsArr : List Value} {keys : List Nat}
    (h : ∀ x ∈ lhsArr, ∀ y ∈ rhsArr, ∀ p' q',
      (d x y c p' = some [] ↔ d x y c q' = some [])) :
    (strictArrayLoop d c p lhsArr rhsArr keys = some []
      ↔ strictArrayLoop d c q lhsArr rhsArr keys = some []) := by
  induction keys with
  | nil => simp [strictArrayLoop]
  | cons k rest ih =>
    unfold strictArrayLoop
    rw [seq_eq_nil_iff, seq_eq_nil_iff]
    rw [and_congr (strictArrayItem_nil_iff p q h) ih]

theorem inclusiveObjectLoop_nil_iff {d : DiffFn} {c : Config} (p q : PathRef)
    {rhsV : Value} {lhsEntries : List (String × Value)}
    {items : List (String × Value)}
    (h : ∀ kv ∈ items, ∀ l, objGet lhsEntries kv.1 = some l → ∀ p' q',
      (d l kv.2 c p' = some [] ↔ d l kv.2 c q' = some [])) :
    (inclusiveObjectLoop d c p rhsV lhsEntries items = some []
      ↔ inclusiveObjectLoop d c q rhsV lhsEntries items = some []) := by
  induction items with
  | nil => simp [inclusiveObjectLoop]
  | cons kv rest ih =>
    obtain ⟨k, r⟩ := kv
    unfold inclusiveObjectLoop
    rw [seq_eq_nil_iff, seq_eq_nil_iff]
    have hhead : ((match objGet lhsEntries k with
        | some l => d l r c (p.append (.Field k))
        | none => some [mkRecord (p.append (.Field k)) none (some rhsV) c]) = some []
      ↔ (match objGet lhsEntries k with
        | some l => d l r c (q.append (.Field k))
        | none => some [mkRecord (q.append (.Field k)) none (some rhsV) c]) = some []) := by
      rcases hg : objGet lhsEntries k with _ | l
      · simp
      · exact h (k, r) (List.mem_cons_self _ rest) l hg _ _
    rw [and_congr hhead (ih fun z hz => h z (List.mem_cons_of_mem _ hz))]

theorem strictObjectItem_nil_iff {d : DiffFn} {c : Config} (p q : PathRef)
    {lhsEntries rhsEntries : List (String × Value)} {k : String}
    (h : ∀ l, objGet lhsEntries k = some l → ∀ r, objGet rhsEntries k = some r →
      ∀ p' q', (d l r c p' = some [] ↔ d l r c q' = some [])) :
    (strictObjectItem d c p lhsEntries rhsEntries k = some []
      ↔ strictObjectItem d c q lhsEntries rhsEntries k = some []) := by
  unfold strictObjectItem
  rcases hl : objGet lhsEntries k with _ | l <;>
    rcases hr : objGet rhsEntries k with _ | r
  · simp
  · simp
  · simp
  · exact h l hl r hr _ _

theorem strictObjectLoop_nil_iff {d : DiffFn} {c : Config} (p q : PathRef)
    {lhsEntries rhsEntries : List (String × Value)} {keys : List String}
    (h : ∀ l, (∃ k, objGet lhsEntries k = some l) →
      ∀ r, (∃ k, objGet rhsEntries k = some r) → ∀ p' q',
      (d l r c p' = some [] ↔ d l r c q' = some [])) :
    (strictObjectLoop d c p lhsEntries rhsEntries keys = some []
      ↔ strictObjectLoop d c q lhsEntries rhsEntries keys = some []) := by
  induction keys with
  | nil => simp [strictObjectLoop]
  | cons k rest ih =>
    unfold strictObjectLoop
    rw [seq_eq_nil_iff, seq_eq_nil_iff]
    rw [and_congr
      (strictObjectItem_nil_iff p q fun l hl r hr p' q' => h l ⟨k, hl⟩ r ⟨k, hr⟩ p' q')
      ih]

theorem diffFuel_nil_path_iff :
    ∀ fuel (l r : Value) (c : Config) (p q : PathRef),
      max l.vsize r.vsize < fuel →
      (diffFuel fuel l r c p = some [] ↔ diffFuel fuel l r c q = some []) := by
  intro fuel
  induction fuel with
  | zero =>
    intro l r c p q h
    exact absurd h (Nat.not_lt_zero _)
  | succ f ih =>
    intro l r c p q h
    have hd : ∀ a b, a.vsize < max l.vsize r.vsize →
        b.vsize < max l.vsize r.vsize → ∀ p' q',
        (diffFuel f a b c p' = some [] ↔ diffFuel f a b c q' = some []) := by
      intro a b ha hb p' q'
      exact ih a b c p' q' (by omega)
    cases l with
    | null => exact directCompare_nil_iff c p q _ r
    | bool x => exact directCompare_nil_iff c p q _ r
    | str x => exact directCompare_nil_iff c p q _ r
    | number n => exact onNumber_nil_iff c p q _ r
    | arr items =>
      show onArray (diffFuel f) c p (.arr items) r = some []
        ↔ onArray (diffFuel f) c q (.arr items) r = some []
      unfold onArray
      split
      · unfold onArrayContains
        rcases hr : r.as_array with _ | rhs
        · simp
        · dsimp only [Value.as_array]
          split
          · simp
          · exact containsLoop_nil_iff p q _
      · rcases hr : r.as_array with _ | rhsArr
        · simp
        · have hrV : r = .arr rhsArr := Value.as_array_eq_some hr
          have hmemR : ∀ x ∈ rhsArr, x.vsize < max (Value.arr items).vsize r.vsize := by
            intro x hx
            have := Value.vsize_lt_arr hx
            rw [← hrV] at this
            omega
          have hmemL : ∀ x ∈ items, x.vsize < max (Value.arr items).vsize r.vsize := by
            intro x hx
            have := @Value.vsize_lt_arr x items hx
            omega
          dsimp only [Value.as_array]
          cases c.compare_mode with
          | Inclusive =>
            exact inclusiveArrayLoop_nil_iff p q
              (fun x hx r' hr' p' q' => hd x r' (hmemL x hx) (hmemR r' hr') p' q') 0
          | Strict =>
            exact strictArrayLoop_nil_iff p q
              (fun x hx y hy p' q' => hd x y (hmemL x hx) (hmemR y hy) p' q')
    | obj entries =>
      show onObject (diffFuel f) c p (.obj entries) r = some []
        ↔ onObject (diffFuel f) c q (.obj entries) r = some []
      unfold onObject
      rcases hr : r.as_object with _ | rhsEntries
      · simp
      · have hrV : r = .obj rhsEntries := Value.as_object_eq_some hr
        have hmemR : ∀ x, (∃ k, objGet rhsEntries k = some x) →
            x.vsize < max (Value.obj entries).vsize r.vsize := by
          rintro x ⟨k, hk⟩
          have := Value.vsize_lt_of_objGet hk
          rw [← hrV] at this
          omega
        have hmemL : ∀ x, (∃ k, objGet entries k = some x) →
            x.vsize < max (Value.obj entries).vsize r.vsize := by
          rintro x ⟨k, hk⟩
          have := @Value.vsize_lt_of_objGet entries k _ hk
          omega
        dsimp only [Value.as_object]
        cases c.compare_mode with
        | Inclusive =>
          refine inclusiveObjectLoop_nil_iff p q fun kv hkv l hg p' q' => ?_
          have hl' := hmemL l ⟨kv.1, hg⟩
          have hr' : kv.2.vsize < max (Value.obj entries).vsize r.vsize := by
            have := Value.vsize_lt_obj hkv
            rw [← hrV] at this
            omega
          exact hd l kv.2 hl' hr' p' q'
        | Strict =>
          exact strictObjectLoop_nil_iff p q
            (fun l hl' r' hr' p' q' => hd l r' (hmemL l hl') (hmemR r' hr') p' q')

end SerdeJsonAssert

namespace SerdeJsonAssert

theorem diff_eq_nil_iff_diffOpt (l r : Value) (c : Config) :
    diff l r c = [] ↔ diffOpt l r c = some [] := by
  rw [diffOpt_eq_some]
  simp

theorem inclusiveObjectLoop_eq_nil {d : DiffFn} {c : Config} {p : PathRef}
    {rhsV : Value} {le : List (String × Value)} :
    ∀ items, (∀ kv ∈ items, ∃ l, objGet le kv.1 = some l
        ∧ d l kv.2 c (p.append (.Field kv.1)) = some []) →
      inclusiveObjectLoop d c p rhsV le items = some [] := by
  intro items
  induction items with
  | nil => intro h; rfl
  | cons kv rest ih =>
    intro h
    obtain ⟨k, r⟩ := kv
    obtain ⟨l, hg, hdl⟩ := h (k, r) (List.mem_cons_self _ rest)
    unfold inclusiveObjectLoop
    rw [hg]
    dsimp only
    rw [hdl, ih fun z hz => h z (List.mem_cons_of_mem _ hz)]
    rfl

/-- C2: under `Inclusive` mode only the keys of the right object are
checked: if every entry of `right` has a diff-equal value under the
same key in `left` (in particular `right`'s key set is a subset of
`left`'s), the comparison is empty — keys only in `left` produce no
difference. -/
theorem c2_inclusive_subset (le re : List (String × Value)) (c : Config)
    (hin : c.compare_mode = .Inclusive)
    (h : ∀ kv ∈ re, ∃ lv, objGet le kv.1 = some lv ∧ diff lv kv.2 c = []) :
    diff (.obj le) (.obj re) c = [] := by
  rw [diff_eq_nil_iff_diffOpt, diffOpt_unfold]
  dsimp only
  unfold onObject
  dsimp only [Value.as_object]
  rw [hin]
  dsimp only
  refine inclusiveObjectLoop_eq_nil re fun kv hkv => ?_
  obtain ⟨lv, hg, hd⟩ := h kv hkv
  refine ⟨lv, hg, ?_⟩
  have hsz : max lv.vsize kv.2.vsize
      < max (Value.obj le).vsize (Value.obj re).vsize := by
    have h1 := Value.vsize_lt_of_objGet hg
    have h2 := Value.vsize_lt_obj hkv
    omega
  rw [diffFuel_nil_path_iff _ lv kv.2 c _ .Root hsz]
  rw [diffFuel_fuel_irrel lv kv.2 c .Root hsz
    (show max lv.vsize kv.2.vsize < fuelFor lv kv.2 by unfold fuelFor; omega)]
  show diffOpt lv kv.2 c = some []
  rw [← diff_eq_nil_iff_diffOpt]
  exact hd

theorem c2_inclusive_subset_witness :
    (∀ kv ∈ ([("a", Value.number (.int 1))] : List (String × Value)),
      ∃ lv, objGet [("a", Value.number (.int 1)), ("b", Value.bool true)] kv.1
          = some lv
        ∧ diff lv kv.2 inclusiveConfig = [])
    ∧ diff (.obj [("a", .number (.int 1)), ("b", .bool true)])
        (.obj [("a", .number (.int 1))]) inclusiveConfig = [] := by
  have hh : ∀ kv ∈ ([("a", Value.number (.int 1))] : List (String × Value)),
      ∃ lv, objGet [("a", Value.number (.int 1)), ("b", Value.bool true)] kv.1
          = some lv
        ∧ diff lv kv.2 inclusiveConfig = [] := by
    intro kv hkv
    rw [List.mem_singleton] at hkv
    subst hkv
    exact ⟨.number (.int 1), by decide, by decide⟩
  exact ⟨hh, c2_inclusive_subset _ _ _ rfl hh⟩

end SerdeJsonAssert

namespace SerdeJsonAssert

/-! ## Shapes of emitted records (C6) -/

/-- The record-shape invariant: at least one side is present, and under
`Inclusive` mode the shape "lhs present, rhs absent" never occurs. -/
def recOk (c : Config) (rec : DifferenceRef) : Prop :=
  (rec.lhs.isSome ∨ rec.rhs.isSome)
  ∧ (c.compare_mode = .Inclusive → ¬(rec.lhs.isSome = true ∧ rec.rhs = none))

theorem recOk_both {c : Config} {p : PathRef} {a b : Value} :
    recOk c (mkRecord p (some a) (some b) c) := by
  constructor
  · exact Or.inl rfl
  · rintro _ ⟨_, hrhs⟩
    cases hrhs

theorem recOk_missing_lhs {c : Config} {p : PathRef} {b : Value} :
    recOk c (mkRecord p none (some b) c) := by
  constructor
  · exact Or.inr rfl
  · rintro _ ⟨hlhs, _⟩
    cases hlhs

theorem recOk_strict {c : Config} (hcm : c.compare_mode = .Strict)
    {p : PathRef} {a : Option Value} {b : Option Value}
    (h : a.isSome ∨ b.isSome) : recOk c (mkRecord p a b c) := by
  constructor
  · exact h
  · intro hInc
    rw [hcm] at hInc
    cases hInc

theorem directCompare_shape {c : Config} {p : PathRef} {a b : Value} {out : List DifferenceRef}
    (h : directCompare c p a b = some out) : ∀ rec ∈ out, recOk c rec := by
  unfold directCompare at h
  split at h
  · cases h
    intro rec hrec
    cases hrec
  · cases h
    intro rec hrec
    rw [List.mem_singleton] at hrec
    subst hrec
    exact recOk_both

theorem onNumber_shape {c : Config} {p : PathRef} {a b : Value} {out : List DifferenceRef}
    (h : onNumber c p a b = some out) : ∀ rec ∈ out, recOk c rec := by
  unfold onNumber at h
  rcases hv : (match c.numeric_mode with
    | NumericMode.Strict => eq_values c a b
    | NumericMode.AssumeFloat =>
      match a.as_f64, b.as_f64 with
      | some a, some b => some (eq_floats c a b)
      | a, b => some (decide (a = b))) with _ | iseq
  all_goals rw [hv] at h
  · cases h
  · dsimp only at h
    split at h
    · cases h
      intro rec hrec
      cases hrec
    · cases h
      intro rec hrec
      rw [List.mem_singleton] at hrec
      subst hrec
      exact recOk_both

theorem containsLoop_shape {d : DiffFn} {c : Config} {p : PathRef}
    {lhsV rhsV : Value} {lhsArr rhsFull : List Value} :
    ∀ items out, containsLoop d c p lhsV rhsV lhsArr rhsFull items = some out →
      ∀ rec ∈ out, recOk c rec := by
  intro items
  induction items with
  | nil =>
    intro out h
    cases h
    intro rec hrec
    cases hrec
  | cons it rest ih =>
    intro out h
    unfold containsLoop at h
    rcases hn : countMatchesAsLhs d c it rhsFull with _ | need
    all_goals rw [hn] at h
    · cases h
    · rcases hm : countMatchesAsRhs d c it lhsArr with _ | matching
      all_goals rw [hm] at h
      · cases h
      · dsimp only at h
        split at h
        · cases h
          intro rec hrec
          rw [List.mem_singleton] at hrec
          subst hrec
          exact recOk_both
        · exact ih out h

theorem onArrayContains_shape {d : DiffFn} {c : Config} {p : PathRef}
    {lhsV rhsV : Value} {out : List DifferenceRef}
    (h : onArrayContains d c p lhsV rhsV = some out) : ∀ rec ∈ out, recOk c rec := by
  unfold onArrayContains at h
  rcases hra : rhsV.as_array with _ | rhs
  all_goals rw [hra] at h
  · cases h
    intro rec hrec
    rw [List.mem_singleton] at hrec
    subst hrec
    exact recOk_both
  · rcases hla : lhsV.as_array with _ | lhsArr
    all_goals rw [hla] at h
    · cases h
    · dsimp only at h
      split at h
      · cases h
        intro rec hrec
        rw [List.mem_singleton] at hrec
        subst hrec
        exact recOk_both
      · exact containsLoop_shape rhs out h

theorem inclusiveArrayLoop_shape {d : DiffFn} {c : Config} {p : PathRef}
    {rhsV : Value} {lhsArr : List Value}
    (hd : ∀ a b p' out', d a b c p' = some out' → ∀ rec ∈ out', recOk c rec) :
    ∀ items idx out, inclusiveArrayLoop d c p rhsV lhsArr idx items = some out →
      ∀ rec ∈ out, recOk c rec := by
  intro items
  induction items with
  | nil =>
    intro idx out h
    cases h
    intro rec hrec
    cases hrec
  | cons r rest ih =>
    intro idx out h
    unfold inclusiveArrayLoop at h
    rcases hhead : (match lhsArr.get? idx with
      | some l => d l r c (p.append (.Idx idx))
      | none => some [mkRecord (p.append (.Idx idx)) none (some rhsV) c]) with _ | here
    all_goals rw [hhead] at h
    · cases h
    · rcases htail : inclusiveArrayLoop d c p rhsV lhsArr (idx + 1) rest with _ | tail
      all_goals rw [htail] at h
      · cases h
      · cases h
        intro rec hrec
        rcases List.mem_append.mp hrec with hrec | hrec
        · rcases hg : lhsArr.get? idx with _ | l
          all_goals rw [hg] at hhead
          · cases hhead
            rw [List.mem_singleton] at hrec
            subst hrec
            exact recOk_missing_lhs
          · exact hd l r _ here hhead rec hrec
        · exact ih (idx + 1) tail htail rec hrec

theorem strictArrayLoop_shape {d : DiffFn} {c : Config} {p : PathRef}
    {lhsArr rhsArr : List Value} (hcm : c.compare_mode = .Strict)
    (hd : ∀ a b p' out', d a b c p' = some out' → ∀ rec ∈ out', recOk c rec) :
    ∀ keys out, strictArrayLoop d c p lhsArr rhsArr keys = some out →
      ∀ rec ∈ out, recOk c rec := by
  intro keys
  induction keys with
  | nil =>
    intro out h
    cases h
    intro rec hrec
    cases hrec
  | cons k rest ih =>
    intro out h
    unfold strictArrayLoop at h
    rcases hhead : strictArrayItem d c p lhsArr rhsArr k with _ | here
    all_goals rw [hhead] at h
    · cases h
    · rcases htail : strictArrayLoop d c p lhsArr rhsArr rest with _ | tail
      all_goals rw [htail] at h
      · cases h
      · cases h
        intro rec hrec
        rcases List.mem_append.mp hrec with hrec | hrec
        · unfold strictArrayItem at hhead
          rcases hl : lhsArr.get? k with _ | l <;>
            rcases hr : rhsArr.get? k with _ | r <;>
            rw [hl, hr] at hhead
          · cases hhead
          · cases hhead
            rw [List.mem_singleton] at hrec
            subst hrec
            exact recOk_strict hcm (Or.inr rfl)
          · cases hhead
            rw [List.mem_singleton] at hrec
            subst hrec
            exact recOk_strict hcm (Or.inl rfl)
          · exact hd l r _ here hhead rec hrec
        · exact ih tail htail rec hrec

theorem inclusiveObjectLoop_shape {d : DiffFn} {c : Config} {p : PathRef}
    {rhsV : Value} {lhsEntries : List (String × Value)}
    (hd : ∀ a b p' out', d a b c p' = some out' → ∀ rec ∈ out', recOk c rec) :
    ∀ items out, inclusiveObjectLoop d c p rhsV lhsEntries items = some out →
      ∀ rec ∈ out, recOk c rec := by
  intro items
  induction items with
  | nil =>
    intro out h
    cases h
    intro rec hrec
    cases hrec
  | cons kv rest ih =>
    intro out h
    obtain ⟨k, r⟩ := kv
    unfold inclusiveObjectLoop at h
    rcases hhead : (match objGet lhsEntries k with
      | some l => d l r c (p.append (.Field k))
      | none => some [mkRecord (p.append (.Field k)) none (some rhsV) c]) with _ | here
    all_goals rw [hhead] at h
    · cases h
    · rcases htail : inclusiveObjectLoop d c p rhsV lhsEntries rest with _ | tail
      all_goals rw [htail] at h
      · cases h
      · cases h
        intro rec hrec
        rcases List.mem_append.mp hrec with hrec | hrec
        · rcases hg : objGet lhsEntries k with _ | l
          all_goals rw [hg] at hhead
          · cases hhead
            rw [List.mem_singleton] at hrec
            subst hrec
            exact recOk_missing_lhs
          · exact hd l r _ here hhead rec hrec
        · exact ih tail htail rec hrec

theorem strictObjectLoop_shape {d : DiffFn} {c : Config} {p : PathRef}
    {lhsEntries rhsEntries : List (String × Value)} (hcm : c.compare_mode = .Strict)
    (hd : ∀ a b p' out', d a b c p' = some out' → ∀ rec ∈ out', recOk c rec) :
    ∀ keys out, strictObjectLoop d c p lhsEntries rhsEntries keys = some out →
      ∀ rec ∈ out, recOk c rec := by
  intro keys
  induction keys with
  | nil =>
    intro out h
    cases h
    intro rec hrec
    cases hrec
  | cons k rest ih =>
    intro out h
    unfold strictObjectLoop at h
    rcases hhead : strictObjectItem d c p lhsEntries rhsEntries k with _ | here
    all_goals rw [hhead] at h
    · cases h
    · rcases htail : strictObjectLoop d c p lhsEntries rhsEntries rest with _ | tail
      all_goals rw [htail] at h
      · cases h
      · cases h
        intro rec hrec
        rcases List.mem_append.mp hrec with hrec | hrec
        · unfold strictObjectItem at hhead
          rcases hl : objGet lhsEntries k with _ | l <;>
            rcases hr : objGet rhsEntries k with _ | r <;>
            rw [hl, hr] at hhead
          · cases hhead
          · cases hhead
            rw [List.mem_singleton] at hrec
            subst hrec
            exact recOk_strict hcm (Or.inr rfl)
          · cases hhead
            rw [List.mem_singleton] at hrec
            subst hrec
            exact recOk_strict hcm (Or.inl rfl)
          · exact hd l r _ here hhead rec hrec
        · exact ih tail htail rec hrec

theorem diffFuel_shape :
    ∀ fuel (l r : Value) (c : Config) (p : PathRef) (out : List DifferenceRef),
      diffFuel fuel l r c p = some out → ∀ rec ∈ out, recOk c rec := by
  intro fuel
  induction fuel with
  | zero =>
    intro l r c p out h
    cases h
  | succ f ih =>
    intro l r c p out h
    have hd : ∀ a b p' out', diffFuel f a b c p' = some out' →
        ∀ rec ∈ out', recOk c rec := fun a b p' out' h' => ih a b c p' out' h'
    cases l with
    | null => exact directCompare_shape h
    | bool x => exact directCompare_shape h
    | str x => exact directCompare_shape h
    | number n => exact onNumber_shape h
    | arr items =>
      replace h : onArray (diffFuel f) c p (.arr items) r = some out := h
      unfold onArray at h
      split at h
      · exact onArrayContains_shape h
      · rcases hra : r.as_array with _ | rhsArr
        all_goals rw [hra] at h
        · cases h
          intro rec hrec
          rw [List.mem_singleton] at hrec
          subst hrec
          exact recOk_both
        · dsimp only at h
          rcases hcm : c.compare_mode with _ | _
          all_goals rw [hcm] at h
          · exact inclusiveArrayLoop_shape hd rhsArr 0 out h
          · exact strictArrayLoop_shape hcm hd _ out h
    | obj entries =>
      replace h : onObject (diffFuel f) c p (.obj entries) r = some out := h
      unfold onObject at h
      rcases hro : r.as_object with _ | rhsEntries
      all_goals rw [hro] at h
      · cases h
        intro rec hrec
        rw [List.mem_singleton] at hrec
        subst hrec
        exact recOk_both
      · dsimp only at h
        rcases hcm : c.compare_mode with _ | _
        all_goals rw [hcm] at h
        · exact inclusiveObjectLoop_shape hd rhsEntries out h
        · exact strictObjectLoop_shape hcm hd _ out h

/-- C6: every record produced by a comparison has at least one side
present, and under `Inclusive` mode the only one-sided shape is "lhs
absent, rhs present" — "lhs present, rhs absent" cannot occur. -/
theorem c6_record_shape_invariant (l r : Value) (c : Config)
    (rec : DifferenceRef) (h : rec ∈ diff l r c) :
    (rec.lhs.isSome ∨ rec.rhs.isSome)
    ∧ (c.compare_mode = .Inclusive → ¬(rec.lhs.isSome = true ∧ rec.rhs = none)) := by
  have hopt := diffOpt_eq_some l r c
  exact diffFuel_shape (fuelFor l r) l r c .Root (diff l r c) hopt rec h

theorem c6_record_shape_invariant_witness :
    (mkRecord .Root (some (.bool true)) (some (.bool false)) inclusiveConfig
        ∈ diff (.bool true) (.bool false) inclusiveConfig)
    ∧ ((mkRecord .Root (some (.bool true)) (some (.bool false))
          inclusiveConfig).lhs.isSome
        ∨ (mkRecord .Root (some (.bool true)) (some (.bool false))
          inclusiveConfig).rhs.isSome) :=
  ⟨by decide,
   (c6_record_shape_invariant (.bool true) (.bool false) inclusiveConfig
     (mkRecord .Root (some (.bool true)) (some (.bool false)) inclusiveConfig)
     (by decide)).1⟩

end SerdeJsonAssert

namespace SerdeJsonAssert

/-! ## Strict symmetry of one-sided records (C7) -/

theorem mk_onesided_l_ne_both {P p : PathRef} {v x y : Value} {c : Config} :
    mkRecord P none (some v) c ≠ mkRecord p (some x) (some y) c := by
  intro h
  rw [mkRecord, mkRecord, DifferenceRef.mk.injEq] at h
  cases h.2.1

theorem mk_onesided_r_ne_both {P p : PathRef} {v x y : Value} {c : Config} :
    mkRecord P (some v) none c ≠ mkRecord p (some x) (some y) c := by
  intro h
  rw [mkRecord, mkRecord, DifferenceRef.mk.injEq] at h
  cases h.2.2.1

theorem directCompare_not_onesided {c : Config} {p : PathRef} {x y : Value}
    {out : List DifferenceRef} (h : directCompare c p x y = some out)
    {P : PathRef} {v : Value} :
    mkRecord P none (some v) c ∉ out ∧ mkRecord P (some v) none c ∉ out := by
  unfold directCompare at h
  split at h
  · cases h
    exact ⟨List.not_mem_nil _, List.not_mem_nil _⟩
  · cases h
    constructor
    · intro hmem
      rw [List.mem_singleton] at hmem
      exact mk_onesided_l_ne_both hmem
    · intro hmem
      rw [List.mem_singleton] at hmem
      exact mk_onesided_r_ne_both hmem

theorem onNumber_not_onesided {c : Config} {p : PathRef} {x y : Value}
    {out : List DifferenceRef} (h : onNumber c p x y = some out)
    {P : PathRef} {v : Value} :
    mkRecord P none (some v) c ∉ out ∧ mkRecord P (some v) none c ∉ out := by
  unfold onNumber at h
  rcases hv : (match c.numeric_mode with
    | NumericMode.Strict => eq_values c x y
    | NumericMode.AssumeFloat =>
      match x.as_f64, y.as_f64 with
      | some a, some b => some (eq_floats c a b)
      | a, b => some (decide (a = b))) with _ | iseq
  all_goals rw [hv] at h
  · cases h
  · dsimp only at h
    split at h
    · cases h
      exact ⟨List.not_mem_nil _, List.not_mem_nil _⟩
    · cases h
      constructor
      · intro hmem
        rw [List.mem_singleton] at hmem
        exact mk_onesided_l_ne_both hmem
      · intro hmem
        rw [List.mem_singleton] at hmem
        exact mk_onesided_r_ne_both hmem

theorem strictArrayLoop_mem {d : DiffFn} {c : Config} {p : PathRef}
    {la ra : List Value} :
    ∀ {keys : List Nat} {out : List DifferenceRef},
      strictArrayLoop d c p la ra keys = some out →
      ∀ rec : DifferenceRef,
        (rec ∈ out ↔ ∃ k ∈ keys, ∃ cont, strictArrayItem d c p la ra k = some cont
          ∧ rec ∈ cont) := by
  intro keys
  induction keys with
  | nil =>
    intro out h rec
    cases h
    simp
  | cons k rest ih =>
    intro out h rec
    unfold strictArrayLoop at h
    rcases hhead : strictArrayItem d c p la ra k with _ | here
    all_goals rw [hhead] at h
    · cases h
    · rcases htail : strictArrayLoop d c p la ra rest with _ | tail
      all_goals rw [htail] at h
      · cases h
      · cases h
        rw [List.mem_append, ih htail rec]
        constructor
        · rintro (hm | ⟨k', hk', cont, hc, hm⟩)
          · exact ⟨k, List.mem_cons_self k rest, here, hhead, hm⟩
          · exact ⟨k', List.mem_cons_of_mem k hk', cont, hc, hm⟩
        · rintro ⟨k', hk', cont, hc, hm⟩
          rcases List.mem_cons.mp hk' with rfl | hk'
          · rw [hhead] at hc
            cases hc
            exact Or.inl hm
          · exact Or.inr ⟨k', hk', cont, hc, hm⟩

theorem strictObjectLoop_mem {d : DiffFn} {c : Config} {p : PathRef}
    {le re : List (String × Value)} :
    ∀ {keys : List String} {out : List DifferenceRef},
      strictObjectLoop d c p le re keys = some out →
      ∀ rec : DifferenceRef,
        (rec ∈ out ↔ ∃ k ∈ keys, ∃ cont, strictObjectItem d c p le re k = some cont
          ∧ rec ∈ cont) := by
  intro keys
  induction keys with
  | nil =>
    intro out h rec
    cases h
    simp
  | cons k rest ih =>
    intro out h rec
    unfold strictObjectLoop at h
    rcases hhead : strictObjectItem d c p le re k with _ | here
    all_goals rw [hhead] at h
    · cases h
    · rcases htail : strictObjectLoop d c p le re rest with _ | tail
      all_goals rw [htail] at h
      · cases h
      · cases h
        rw [List.mem_append, ih htail rec]
        constructor
        · rintro (hm | ⟨k', hk', cont, hc, hm⟩)
          · exact ⟨k, List.mem_cons_self k rest, here, hhead, hm⟩
          · exact ⟨k', List.mem_cons_of_mem k hk', cont, hc, hm⟩
        · rintro ⟨k', hk', cont, hc, hm⟩
          rcases List.mem_cons.mp hk' with rfl | hk'
          · rw [hhead] at hc
            cases hc
            exact Or.inl hm
          · exact Or.inr ⟨k', hk', cont, hc, hm⟩

end SerdeJsonAssert

namespace SerdeJsonAssert

theorem mk_l_eq_iff {P q : PathRef} {v r : Value} {c : Config} :
    mkRecord P none (some v) c = mkRecord q none (some r) c ↔ P = q ∧ v = r := by
  simp [mkRecord]

theorem mk_r_eq_iff {P q : PathRef} {v r : Value} {c : Config} :
    mkRecord P (some v) none c = mkRecord q (some r) none c ↔ P = q ∧ v = r := by
  simp [mkRecord]

theorem mk_l_ne_r {P q : PathRef} {v r : Value} {c : Config} :
    mkRecord P none (some v) c ≠ mkRecord q (some r) none c := by
  simp [mkRecord]

theorem mk_r_ne_l {P q : PathRef} {v r : Value} {c : Config} :
    mkRecord P (some v) none c ≠ mkRecord q none (some r) c := by
  simp [mkRecord]

theorem diffFuel_arr_arr {f : Nat} {la ra : List Value} {p : PathRef} :
    diffFuel (f + 1) (.arr la) (.arr ra) strictConfig p
      = strictArrayLoop (diffFuel f) strictConfig p la ra (allIndexes ra la) :=
  rfl

theorem diffFuel_obj_obj {f : Nat} {le re : List (String × Value)} {p : PathRef} :
    diffFuel (f + 1) (.obj le) (.obj re) strictConfig p
      = strictObjectLoop (diffFuel f) strictConfig p le re (allObjKeys re le) :=
  rfl

theorem diffFuel_not_onesided {f : Nat} {x y : Value} {p : PathRef}
    {out : List DifferenceRef}
    (hxy : (x.as_array.isSome → y.as_array.isSome → False)
      ∧ (x.as_object.isSome → y.as_object.isSome → False))
    (h : diffFuel (f + 1) x y strictConfig p = some out) (P : PathRef) (v : Value) :
    mkRecord P none (some v) strictConfig ∉ out
      ∧ mkRecord P (some v) none strictConfig ∉ out := by
  cases x with
  | null =>
    replace h : directCompare strictConfig p .null y = some out := h
    exact directCompare_not_onesided h
  | bool xb =>
    replace h : directCompare strictConfig p (.bool xb) y = some out := h
    exact directCompare_not_onesided h
  | str xs =>
    replace h : directCompare strictConfig p (.str xs) y = some out := h
    exact directCompare_not_onesided h
  | number xn =>
    replace h : onNumber strictConfig p (.number xn) y = some out := h
    exact onNumber_not_onesided h
  | arr la =>
    replace h : onArray (diffFuel f) strictConfig p (.arr la) y = some out := h
    unfold onArray at h
    rw [if_neg (by decide)] at h
    rcases hy : y.as_array with _ | ys
    · rw [hy] at h
      cases h
      constructor
      · intro hmem
        rw [List.mem_singleton] at hmem
        exact mk_onesided_l_ne_both hmem
      · intro hmem
        rw [List.mem_singleton] at hmem
        exact mk_onesided_r_ne_both hmem
    · exact absurd (hxy.1 rfl (by rw [hy]; rfl)) id
  | obj le =>
    replace h : onObject (diffFuel f) strictConfig p (.obj le) y = some out := h
    unfold onObject at h
    rcases hy : y.as_object with _ | ys
    · rw [hy] at h
      cases h
      constructor
      · intro hmem
        rw [List.mem_singleton] at hmem
        exact mk_onesided_l_ne_both hmem
      · intro hmem
        rw [List.mem_singleton] at hmem
        exact mk_onesided_r_ne_both hmem
    · exact absurd (hxy.2 rfl (by rw [hy]; rfl)) id

theorem diffFuel_onesided_symm :
    ∀ fuel (a b : Value) (p P : PathRef) (v : Value)
      (outAB outBA : List DifferenceRef),
      max a.vsize b.vsize < fuel →
      diffFuel fuel a b strictConfig p = some outAB →
      diffFuel fuel b a strictConfig p = some outBA →
      (mkRecord P none (some v) strictConfig ∈ outAB
        ↔ mkRecord P (some v) none strictConfig ∈ outBA) := by
  intro fuel
  induction fuel with
  | zero =>
    intro a b p P v o1 o2 hsz h1 h2
    cases h1
  | succ f ih =>
    intro a b p P v o1 o2 hsz h1 h2
    cases a <;> cases b
    case arr.arr =>
      rename_i la ra
      rw [diffFuel_arr_arr] at h1 h2
      have hitem : ∀ k : Nat,
          (∃ cont, strictArrayItem (diffFuel f) strictConfig p la ra k = some cont
            ∧ mkRecord P none (some v) strictConfig ∈ cont)
          ↔ (∃ cont, strictArrayItem (diffFuel f) strictConfig p ra la k = some cont
            ∧ mkRecord P (some v) none strictConfig ∈ cont) := by
        intro k
        unfold strictArrayItem
        rcases hl : la.get? k with _ | l <;> rcases hr : ra.get? k with _ | r
        · constructor <;> rintro ⟨cont, hc, _⟩ <;> cases hc
        · constructor
          · rintro ⟨cont, hc, hm⟩
            cases hc
            rw [List.mem_singleton, mk_l_eq_iff] at hm
            refine ⟨_, rfl, ?_⟩
            rw [List.mem_singleton, mk_r_eq_iff]
            exact hm
          · rintro ⟨cont, hc, hm⟩
            cases hc
            rw [List.mem_singleton, mk_r_eq_iff] at hm
            refine ⟨_, rfl, ?_⟩
            rw [List.mem_singleton, mk_l_eq_iff]
            exact hm
        · constructor
          · rintro ⟨cont, hc, hm⟩
            cases hc
            rw [List.mem_singleton] at hm
            exact absurd hm mk_l_ne_r
          · rintro ⟨cont, hc, hm⟩
            cases hc
            rw [List.mem_singleton] at hm
            exact absurd hm mk_r_ne_l
        · have hszl : l.vsize < f := by
            have h1' := Value.vsize_lt_arr (List.get?_mem hl)
            have h2' : (Value.arr la).vsize ≤ max (Value.arr la).vsize (Value.arr ra).vsize := le_max_left _ _
            omega
          have hszr : r.vsize < f := by
            have h1' := Value.vsize_lt_arr (List.get?_mem hr)
            have h2' : (Value.arr ra).vsize ≤ max (Value.arr la).vsize (Value.arr ra).vsize := le_max_right _ _
            omega
          obtain ⟨cont₁, hc₁⟩ := Option.isSome_iff_exists.mp
            (diffFuel_isSome_of_lt f l r strictConfig (p.append (.Idx k)) (by omega))
          obtain ⟨cont₂, hc₂⟩ := Option.isSome_iff_exists.mp
            (diffFuel_isSome_of_lt f r l strictConfig (p.append (.Idx k)) (by omega))
          have hiff := ih l r (p.append (.Idx k)) P v cont₁ cont₂ (by omega) hc₁ hc₂
          constructor
          · rintro ⟨cont, hc, hm⟩
            dsimp only at hc
            rw [hc₁] at hc
            cases hc
            refine ⟨cont₂, ?_, hiff.mp hm⟩
            dsimp only
            exact hc₂
          · rintro ⟨cont, hc, hm⟩
            dsimp only at hc
            rw [hc₂] at hc
            cases hc
            refine ⟨cont₁, ?_, hiff.mpr hm⟩
            dsimp only
            exact hc₁
      rw [strictArrayLoop_mem h1, strictArrayLoop_mem h2]
      constructor
      · rintro ⟨k, hk, hrest⟩
        refine ⟨k, ?_, (hitem k).mp hrest⟩
        rw [mem_allIndexes] at hk ⊢
        omega
      · rintro ⟨k, hk, hrest⟩
        refine ⟨k, ?_, (hitem k).mpr hrest⟩
        rw [mem_allIndexes] at hk ⊢
        omega
    case obj.obj =>
      rename_i le re
      rw [diffFuel_obj_obj] at h1 h2
      have hitem : ∀ k : String,
          (∃ cont, strictObjectItem (diffFuel f) strictConfig p le re k = some cont
            ∧ mkRecord P none (some v) strictConfig ∈ cont)
          ↔ (∃ cont, strictObjectItem (diffFuel f) strictConfig p re le k = some cont
            ∧ mkRecord P (some v) none strictConfig ∈ cont) := by
        intro k
        unfold strictObjectItem
        rcases hl : objGet le k with _ | l <;> rcases hr : objGet re k with _ | r
        · constructor <;> rintro ⟨cont, hc, _⟩ <;> cases hc
        · constructor
          · rintro ⟨cont, hc, hm⟩
            cases hc
            rw [List.mem_singleton, mk_l_eq_iff] at hm
            refine ⟨_, rfl, ?_⟩
            rw [List.mem_singleton, mk_r_eq_iff]
            exact hm
          · rintro ⟨cont, hc, hm⟩
            cases hc
            rw [List.mem_singleton, mk_r_eq_iff] at hm
            refine ⟨_, rfl, ?_⟩
            rw [List.mem_singleton, mk_l_eq_iff]
            exact hm
        · constructor
          · rintro ⟨cont, hc, hm⟩
            cases hc
            rw [List.mem_singleton] at hm
            exact absurd hm mk_l_ne_r
          · rintro ⟨cont, hc, hm⟩
            cases hc
            rw [List.mem_singleton] at hm
            exact absurd hm mk_r_ne_l
        · have hszl : l.vsize < f := by
            have h1' := Value.vsize_lt_of_objGet hl
            have h2' : (Value.obj le).vsize ≤ max (Value.obj le).vsize (Value.obj re).vsize := le_max_left _ _
            omega
          have hszr : r.vsize < f := by
            have h1' := Value.vsize_lt_of_objGet hr
            have h2' : (Value.obj re).vsize ≤ max (Value.obj le).vsize (Value.obj re).vsize := le_max_right _ _
            omega
          obtain ⟨cont₁, hc₁⟩ := Option.isSome_iff_exists.mp
            (diffFuel_isSome_of_lt f l r strictConfig (p.append (.Field k)) (by omega))
          obtain ⟨cont₂, hc₂⟩ := Option.isSome_iff_exists.mp
            (diffFuel_isSome_of_lt f r l strictConfig (p.append (.Field k)) (by omega))
          have hiff := ih l r (p.append (.Field k)) P v cont₁ cont₂ (by omega) hc₁ hc₂
          constructor
          · rintro ⟨cont, hc, hm⟩
            dsimp only at hc
            rw [hc₁] at hc
            cases hc
            refine ⟨cont₂, ?_, hiff.mp hm⟩
            dsimp only
            exact hc₂
          · rintro ⟨cont, hc, hm⟩
            dsimp only at hc
            rw [hc₂] at hc
            cases hc
            refine ⟨cont₁, ?_, hiff.mpr hm⟩
            dsimp only
            exact hc₁
      rw [strictObjectLoop_mem h1, strictObjectLoop_mem h2]
      constructor
      · rintro ⟨k, hk, hrest⟩
        refine ⟨k, ?_, (hitem k).mp hrest⟩
        rw [mem_allObjKeys] at hk ⊢
        tauto
      · rintro ⟨k, hk, hrest⟩
        refine ⟨k, ?_, (hitem k).mpr hrest⟩
        rw [mem_allObjKeys] at hk ⊢
        tauto
    all_goals
      exact iff_of_false
        ((diffFuel_not_onesided
          (by refine ⟨fun hx hy => ?_, fun hx hy => ?_⟩ <;>
            simp [Value.as_array, Value.as_object] at hx hy) h1 P v).1)
        ((diffFuel_not_onesided
          (by refine ⟨fun hx hy => ?_, fun hx hy => ?_⟩ <;>
            simp [Value.as_array, Value.as_object] at hx hy) h2 P v).2)

/-- C7: strict symmetry of one-sidedness: `compare(a, b, strict_config)`
holds a one-sided record with `lhs` absent at path `P` exactly when
`compare(b, a, strict_config)` holds a one-sided record with `rhs`
absent at the same path `P` (and the present value is the same). -/
theorem c7_strict_onesided_symmetry (a b : Value) (P : PathRef) (v : Value) :
    mkRecord P none (some v) strictConfig ∈ diff a b strictConfig
      ↔ mkRecord P (some v) none strictConfig ∈ diff b a strictConfig := by
  have h1 := diffOpt_eq_some a b strictConfig
  have h2 := diffOpt_eq_some b a strictConfig
  unfold diffOpt at h1 h2
  have hfuel : fuelFor b a = fuelFor a b := by
    unfold fuelFor
    rw [Nat.max_comm]
  rw [hfuel] at h2
  exact diffFuel_onesided_symm (fuelFor a b) a b .Root P v _ _
    (by unfold fuelFor; omega) h1 h2

end SerdeJsonAssert

namespace SerdeJsonAssert

/-! ## The value carried by one-sided records (C10) -/

theorem diffFuel_arr_arr_incl {f : Nat} {la ra : List Value} {p : PathRef} :
    diffFuel (f + 1) (.arr la) (.arr ra) inclusiveConfig p
      = inclusiveArrayLoop (diffFuel f) inclusiveConfig p (.arr ra) la 0 ra :=
  rfl

theorem diffFuel_obj_obj_incl {f : Nat} {le re : List (String × Value)}
    {p : PathRef} :
    diffFuel (f + 1) (.obj le) (.obj re) inclusiveConfig p
      = inclusiveObjectLoop (diffFuel f) inclusiveConfig p (.obj re) le re :=
  rfl

theorem mem_keys_of_objGet {es : List (String × Value)} {k : String} {v : Value}
    (h : objGet es k = some v) : k ∈ objKeys es :=
  List.mem_map.mpr ⟨(k, v), objGet_mem h, rfl⟩

theorem inclusiveObjectLoop_mem_of {d : DiffFn} {c : Config} {p : PathRef}
    {rhsV : Value} {le : List (String × Value)} :
    ∀ {items : List (String × Value)} {out : List DifferenceRef}
      (kv : String × Value),
      inclusiveObjectLoop d c p rhsV le items = some out → kv ∈ items →
      objGet le kv.1 = none →
      mkRecord (p.append (.Field kv.1)) none (some rhsV) c ∈ out := by
  intro items
  induction items with
  | nil =>
    intro out kv h hm
    cases hm
  | cons kv' rest ih =>
    intro out kv h hm hg
    obtain ⟨k', r'⟩ := kv'
    unfold inclusiveObjectLoop at h
    rcases hhead : (match objGet le k' with
      | some l => d l r' c (p.append (.Field k'))
      | none => some [mkRecord (p.append (.Field k')) none (some rhsV) c]) with _ | here
    all_goals rw [hhead] at h
    · cases h
    · rcases htail : inclusiveObjectLoop d c p rhsV le rest with _ | tail
      all_goals rw [htail] at h
      · cases h
      · cases h
        rcases List.mem_cons.mp hm with rfl | hm'
        · rw [hg] at hhead
          cases hhead
          exact List.mem_append.mpr (Or.inl (List.mem_singleton.mpr rfl))
        · exact List.mem_append.mpr (Or.inr (ih kv htail hm' hg))

theorem inclusiveArrayLoop_mem_of {d : DiffFn} {c : Config} {p : PathRef}
    {rhsV : Value} {la : List Value} :
    ∀ {items : List Value} {idx : Nat} {out : List DifferenceRef} (j : Nat)
      (rvj : Value),
      inclusiveArrayLoop d c p rhsV la idx items = some out →
      items.get? j = some rvj → la.get? (idx + j) = none →
      mkRecord (p.append (.Idx (idx + j))) none (some rhsV) c ∈ out := by
  intro items
  induction items with
  | nil =>
    intro idx out j rvj h hj
    cases hj
  | cons r rest ih =>
    intro idx out j rvj h hj hg
    unfold inclusiveArrayLoop at h
    rcases hhead : (match la.get? idx with
      | some l => d l r c (p.append (.Idx idx))
      | none => some [mkRecord (p.append (.Idx idx)) none (some rhsV) c]) with _ | here
    all_goals rw [hhead] at h
    · cases h
    · rcases htail : inclusiveArrayLoop d c p rhsV la (idx + 1) rest with _ | tail
      all_goals rw [htail] at h
      · cases h
      · cases h
        cases j with
        | zero =>
          rw [Nat.add_zero] at hg ⊢
          rw [hg] at hhead
          cases hhead
          exact List.mem_append.mpr (Or.inl (List.mem_singleton.mpr rfl))
        | succ j' =>
          have hj' : rest.get? j' = some rvj := hj
          have harith : idx + (j' + 1) = (idx + 1) + j' := by omega
          rw [harith] at hg ⊢
          exact List.mem_append.mpr (Or.inr (ih j' rvj htail hj' hg))

/-- C10: the value stored in a one-sided record differs by compare
mode.  Under `Strict`, a record for a key or index present on only one
side stores the child element at that key on its present side; under
`Inclusive`, a missing-element record stores the *entire* right-hand
array or object as its `rhs`, not the missing child. -/
theorem c10_onesided_record_payload (le re : List (String × Value))
    (la ra : List Value) (k : String) (i : Nat) (rv lv : Value) :
    (objGet le k = none → objGet re k = some rv →
      mkRecord (PathRef.Root.append (.Field k)) none (some rv) strictConfig
        ∈ diff (.obj le) (.obj re) strictConfig)
    ∧ (objGet le k = some lv → objGet re k = none →
      mkRecord (PathRef.Root.append (.Field k)) (some lv) none strictConfig
        ∈ diff (.obj le) (.obj re) strictConfig)
    ∧ (la.get? i = none → ra.get? i = some rv →
      mkRecord (PathRef.Root.append (.Idx i)) none (some rv) strictConfig
        ∈ diff (.arr la) (.arr ra) strictConfig)
    ∧ (la.get? i = some lv → ra.get? i = none →
      mkRecord (PathRef.Root.append (.Idx i)) (some lv) none strictConfig
        ∈ diff (.arr la) (.arr ra) strictConfig)
    ∧ (objGet le k = none → (k, rv) ∈ re →
      mkRecord (PathRef.Root.append (.Field k)) none (some (.obj re))
          inclusiveConfig
        ∈ diff (.obj le) (.obj re) inclusiveConfig)
    ∧ (la.get? i = none → ra.get? i = some rv →
      mkRecord (PathRef.Root.append (.Idx i)) none (some (.arr ra))
          inclusiveConfig
        ∈ diff (.arr la) (.arr ra) inclusiveConfig) := by
  have hobjS := diffOpt_eq_some (.obj le) (.obj re) strictConfig
  have harrS := diffOpt_eq_some (.arr la) (.arr ra) strictConfig
  have hobjI := diffOpt_eq_some (.obj le) (.obj re) inclusiveConfig
  have harrI := diffOpt_eq_some (.arr la) (.arr ra) inclusiveConfig
  unfold diffOpt fuelFor at hobjS harrS hobjI harrI
  rw [diffFuel_obj_obj] at hobjS
  rw [diffFuel_arr_arr] at harrS
  rw [diffFuel_obj_obj_incl] at hobjI
  rw [diffFuel_arr_arr_incl] at harrI
  refine ⟨?_, ?_, ?_, ?_, ?_, ?_⟩
  · intro hl hr
    rw [strictObjectLoop_mem hobjS]
    refine ⟨k, mem_allObjKeys.mpr (Or.inl (mem_keys_of_objGet hr)), ?_⟩
    refine ⟨_, ?_, List.mem_singleton.mpr rfl⟩
    unfold strictObjectItem
    rw [hl, hr]
  · intro hl hr
    rw [strictObjectLoop_mem hobjS]
    refine ⟨k, mem_allObjKeys.mpr (Or.inr (mem_keys_of_objGet hl)), ?_⟩
    refine ⟨_, ?_, List.mem_singleton.mpr rfl⟩
    unfold strictObjectItem
    rw [hl, hr]
  · intro hl hr
    rw [strictArrayLoop_mem harrS]
    have hi : i < ra.length := get?_isSome_iff.mp (by rw [hr]; rfl)
    refine ⟨i, mem_allIndexes.mpr (Or.inl hi), ?_⟩
    refine ⟨_, ?_, List.mem_singleton.mpr rfl⟩
    unfold strictArrayItem
    rw [hl, hr]
  · intro hl hr
    rw [strictArrayLoop_mem harrS]
    have hi : i < la.length := get?_isSome_iff.mp (by rw [hl]; rfl)
    refine ⟨i, mem_allIndexes.mpr (Or.inr hi), ?_⟩
    refine ⟨_, ?_, List.mem_singleton.mpr rfl⟩
    unfold strictArrayItem
    rw [hl, hr]
  · intro hl hm
    exact inclusiveObjectLoop_mem_of (k, rv) hobjI hm hl
  · intro hl hr
    have h0 : la.get? (0 + i) = none := by
      rw [Nat.zero_add]
      exact hl
    have := inclusiveArrayLoop_mem_of i rv harrI hr h0
    rw [Nat.zero_add] at this
    exact this

theorem c10_onesided_record_payload_witness :
    mkRecord (PathRef.Root.append (.Field "a")) none (some (.number (.int 1)))
        strictConfig
      ∈ diff (.obj []) (.obj [("a", .number (.int 1))]) strictConfig
    ∧ mkRecord (PathRef.Root.append (.Field "a")) none
        (some (.obj [("a", .number (.int 1))])) inclusiveConfig
      ∈ diff (.obj []) (.obj [("a", .number (.int 1))]) inclusiveConfig :=
  ⟨(c10_onesided_record_payload [] [("a", .number (.int 1))] [] [] "a" 0
      (.number (.int 1)) .null).1 rfl rfl,
   (c10_onesided_record_payload [] [("a", .number (.int 1))] [] [] "a" 0
      (.number (.int 1)) .null).2.2.2.2.1 rfl (List.mem_singleton.mpr rfl)⟩

/-- C8: the strict union-of-keys loop emits records in the order of the
key enumeration; two enumerations of the same key set (the Rust code
iterates a `HashSet`, whose order is unspecified and varies between
runs) produce observably different outputs on the strict comparison of
`{}` against `{"a": 1, "b": 2}`. -/
theorem c8_hashset_order_dependence :
    (["a", "b"] : List String).Perm ["b", "a"]
    ∧ allObjKeys [("a", Value.number (.int 1)), ("b", Value.number (.int 2))] []
        = ["a", "b"]
    ∧ strictObjectLoop (diffFuel 0) strictConfig .Root []
        [("a", .number (.int 1)), ("b", .number (.int 2))] ["a", "b"]
      ≠ strictObjectLoop (diffFuel 0) strictConfig .Root []
        [("a", .number (.int 1)), ("b", .number (.int 2))] ["b", "a"] :=
  ⟨by decide, by decide, by decide⟩

end SerdeJsonAssert

namespace SerdeJsonAssert

theorem c7_strict_onesided_symmetry_witness :
    mkRecord (PathRef.Root.append (.Field "a")) none (some (.number (.int 1)))
        strictConfig
      ∈ diff (.obj []) (.obj [("a", .number (.int 1))]) strictConfig :=
  (c7_strict_onesided_symmetry (.obj []) (.obj [("a", .number (.int 1))])
    (PathRef.Root.append (.Field "a")) (.number (.int 1))).mpr (by decide)

theorem c9_compare_never_fails_witness :
    diffOpt (.arr [.number (.int 1)]) (.obj []) strictConfig
      = some (diff (.arr [.number (.int 1)]) (.obj []) strictConfig) :=
  c9_compare_never_fails (.arr [.number (.int 1)]) (.obj []) strictConfig

end SerdeJsonAssert
